import Mathlib

/-!
# micro-manager: a verification development

A shallow embedding of `micro-manager.c` (the t1.micro CPU manager): the
utilization sampler `get_cpu_usage`, the process enumerator `update_pidlist`,
the controller step and the quantum split of `main`, and the main loop as a
small-step machine.  The C type `double` is modelled as IEEE 754 binary64 with
round-to-nearest, ties-to-even, over the rationals.
-/

namespace MicroManager

/-! ## IEEE 754 binary64 -/

/-- Two to the power `k` as a rational number. -/
def pow2 (k : Int) : ℚ :=
  if 0 ≤ k then ((2 ^ k.toNat : Nat) : ℚ) else 1 / ((2 ^ (-k).toNat : Nat) : ℚ)

/-- Floor of the binary logarithm of a natural number, by repeated halving;
the first argument bounds the number of halvings. -/
def log2f : Nat → Nat → Nat
  | 0, _ => 0
  | fuel + 1, n => if 2 ≤ n then log2f fuel (n / 2) + 1 else 0

/-- Floor of the binary logarithm of a positive rational: the `e` with
`2^e ≤ q < 2^(e+1)`. -/
def ilog2 (q : ℚ) : Int :=
  let k : Int := (log2f q.num.natAbs q.num.natAbs : Int) - (log2f q.den q.den : Int)
  if pow2 k ≤ q then k else k - 1

/-- Round a rational to the nearest integer, ties to the even one. -/
def rne (q : ℚ) : Int :=
  let f := ⌊q⌋
  let r := q - f
  if r < 1 / 2 then f else if 1 / 2 < r then f + 1 else if f % 2 = 0 then f else f + 1

/-- Exponent of the unit in the last place of the binary64 format at the
magnitude `q`: 52 below the binade of `q`, and never below the subnormal
spacing `2^-1074`. -/
def ulpExp (q : ℚ) : Int := max (ilog2 q) (-1022) - 52

/-- Round a non-negative magnitude to the binary64 grid (53-bit significand,
least exponent -1074), to nearest, ties to even, with the exponent unbounded
above; the overflow test is made by `ofMag`. -/
def roundMag (q : ℚ) : ℚ :=
  if q = 0 then 0 else (rne (q / pow2 (ulpExp q)) : ℚ) * pow2 (ulpExp q)

/-- A value of the C type `double`: a NaN, an infinity, or a finite value in
sign-magnitude form (`fin true 0` is the negative zero). -/
inductive Double where
  | nan : Double
  | inf (neg : Bool) : Double
  | fin (neg : Bool) (mag : ℚ) : Double
  deriving DecidableEq

namespace Double

/-- The signed value of a finite sign-magnitude pair. -/
def sval (neg : Bool) (mag : ℚ) : ℚ := if neg then -mag else mag

/-- The double with the given sign nearest to the exact magnitude `q`; a
magnitude that rounds to `2^1024` or more overflows to the infinity. -/
def ofMag (neg : Bool) (q : ℚ) : Double :=
  if pow2 1024 ≤ roundMag q then inf neg else fin neg (roundMag q)

/-- Conversion of an integer (`int`, `long`, `unsigned long`) to `double`. -/
def ofInt (n : Int) : Double := ofMag (decide (n < 0)) (|n| : Int)

/-- The double closest to a non-negative decimal literal of the source. -/
def lit (q : ℚ) : Double := ofMag false q

/-- The product `x * y` of two doubles. -/
def mul : Double → Double → Double
  | nan, _ => nan
  | _, nan => nan
  | inf s, inf t => inf (xor s t)
  | inf s, fin t b => if b = 0 then nan else inf (xor s t)
  | fin s a, inf t => if a = 0 then nan else inf (xor s t)
  | fin s a, fin t b => ofMag (xor s t) (a * b)

/-- The quotient `x / y` of two doubles. -/
def div : Double → Double → Double
  | nan, _ => nan
  | _, nan => nan
  | inf _, inf _ => nan
  | inf s, fin t _ => inf (xor s t)
  | fin s _, inf t => fin (xor s t) 0
  | fin s a, fin t b =>
    if b = 0 then (if a = 0 then nan else inf (xor s t)) else ofMag (xor s t) (a / b)

/-- The difference `x - y` of two doubles. -/
def sub : Double → Double → Double
  | nan, _ => nan
  | _, nan => nan
  | inf s, inf t => if s = t then nan else inf s
  | inf s, fin _ _ => inf s
  | fin _ _, inf t => inf (!t)
  | fin s a, fin t b =>
    let v := sval s a - sval t b
    if v = 0 then fin (s && !t) 0 else ofMag (decide (v < 0)) |v|

/-- The comparison `x < y` of C: false when either side is a NaN. -/
def lt : Double → Double → Bool
  | nan, _ => false
  | _, nan => false
  | inf s, inf t => s && !t
  | inf s, fin _ _ => s
  | fin _ _, inf t => !t
  | fin s a, fin t b => decide (sval s a < sval t b)

/-- The comparison `x <= y` of C: false when either side is a NaN. -/
def le : Double → Double → Bool
  | nan, _ => false
  | _, nan => false
  | inf s, inf t => s || !t
  | inf s, fin _ _ => s
  | fin _ _, inf t => !t
  | fin s a, fin t b => decide (sval s a ≤ sval t b)

/-- The comparison `x > y` of C. -/
def gt (x y : Double) : Bool := lt y x

/-- Conversion of a `double` to `long`: truncation toward zero; a NaN, an
infinity or a value outside the range of `long` gives `-2^63`, the x86-64
result of the conversion instruction. -/
def toLong : Double → Int
  | fin s a =>
    let v : Int := if s then -⌊a⌋ else ⌊a⌋
    if -2 ^ 63 ≤ v ∧ v < 2 ^ 63 then v else -2 ^ 63
  | _ => -2 ^ 63

/-- The double is a NaN. -/
def isNaN : Double → Bool
  | nan => true
  | _ => false

/-- The value is one of the binary64 format: a NaN, an infinity, or a finite
magnitude below `2^1024` that rounding leaves unchanged. -/
def isBinary64 : Double → Bool
  | fin _ a => decide (0 ≤ a ∧ roundMag a = a ∧ a < pow2 1024)
  | _ => true

end Double

open Double

/-! ## Constants of the source -/

/-- `#define SCHED_QUANTUM_NS (100 * 1000 * 1000)` -/
def SCHED_QUANTUM_NS : Int := 100 * 1000 * 1000

/-- `#define PIDLIST_SIZE (1024)` -/
def PIDLIST_SIZE : Nat := 1024

/-- `#define CPU_T1MICRO (0.30)` -/
def CPU_T1MICRO : Double := lit (30 / 100)

/-- `#define CPU_MIN (0.01)` -/
def CPU_MIN : Double := lit (1 / 100)

/-- `#define CPU_MAX (1.00)` -/
def CPU_MAX : Double := lit 1

/-! ## The controller step of `main` -/

/-- Lines 190-194 of `main`: the proportional law followed by the two clamp
comparisons, for the current target and the utilization reading `u`. -/
def controller_step (target_cpu_usage u : Double) : Double :=
  let t1 := mul (div target_cpu_usage u) CPU_T1MICRO
  let t2 := if gt t1 CPU_MAX then CPU_MAX else t1
  if lt t2 CPU_MIN then CPU_MIN else t2

/-- The pre-clamp value of line 190: `target / u * CPU_T1MICRO`. -/
def preclamp (target_cpu_usage u : Double) : Double :=
  mul (div target_cpu_usage u) CPU_T1MICRO

/-- The double lies in the closed range `[CPU_MIN, CPU_MAX]`. -/
def inRange (x : Double) : Bool := le CPU_MIN x && le x CPU_MAX

/-- The target after `n` passes of the controller step from the target `t`,
pass `i` (counted from 0) with the reading `u i`. -/
def target_after (u : Nat → Double) (t : Double) : Nat → Double
  | 0 => t
  | n + 1 => controller_step (target_after u t n) (u n)

/-! ## The quantum split of `main` -/

/-- Reduction of an integer to the range of the C type `long` (64 bits, two's
complement). -/
def wrapLong (n : Int) : Int := (n + 2 ^ 63) % 2 ^ 64 - 2 ^ 63

/-- Lines 196-200 of `main`: `time_running.tv_nsec` and
`time_sleeping.tv_nsec` for the duty cycle `target_cpu_usage`. -/
def quantum_split (target_cpu_usage : Double) : Int × Int :=
  let time_running := toLong (mul (ofInt SCHED_QUANTUM_NS) target_cpu_usage)
  let time_sleeping := wrapLong (SCHED_QUANTUM_NS - time_running)
  (time_running, time_sleeping)

/-! ## The utilization sampler -/

/-- The C `struct timeval`. -/
structure Timeval where
  tv_sec : Int
  tv_usec : Int
  deriving DecidableEq

/-- Reduction of an integer to the range of `unsigned long` (64 bits). -/
def toULong (n : Int) : Nat := (n % 2 ^ 64).toNat

/-- The function `subtract_timevals`: microseconds from `t2` to `t1`, as an
`unsigned long`. -/
def subtract_timevals (t1 t2 : Timeval) : Nat :=
  toULong ((t1.tv_usec - t2.tv_usec) + (t1.tv_sec - t2.tv_sec) * 1000000)

/-- The static variables of `get_cpu_usage` that survive a call. -/
structure SamplerState where
  last_idle : Nat
  last_tv : Timeval
  deriving DecidableEq

/-- The static variables at program start: zero-initialised. -/
def SamplerState.init : SamplerState := ⟨0, ⟨0, 0⟩⟩

/-- What one call of `get_cpu_usage` observes: `idle_jiffies`, the idle field
of the first line of `/proc/stat` as an `unsigned long` (below `2^64`), and
`tv`, the time `gettimeofday` gives in that call. -/
structure StatReading where
  idle_jiffies : Nat
  tv : Timeval
  deriving DecidableEq

/-- The function `get_cpu_usage` on a successful read of `/proc/stat`; the
parameter `JIFFIES_PER_SEC` is the value of the macro of that name,
`sysconf (_SC_CLK_TCK)`.  The result is the value returned and the static
variables after the call. -/
def get_cpu_usage (JIFFIES_PER_SEC : Int) (s : SamplerState) (r : StatReading) :
    Double × SamplerState :=
  if s.last_idle = 0 then
    (ofInt 0, ⟨r.idle_jiffies, r.tv⟩)
  else
    let idle_diff :=
      div (ofInt (toULong ((r.idle_jiffies : Int) - s.last_idle))) (ofInt JIFFIES_PER_SEC)
    let time_diff := div (ofInt (subtract_timevals r.tv s.last_tv)) (ofInt 1000000)
    let s' : SamplerState := ⟨r.idle_jiffies, r.tv⟩
    if gt time_diff (ofInt 0) then
      (sub (ofInt 1) (div idle_diff time_diff), s')
    else
      (ofInt 0, s')

/-- The values successive calls of `get_cpu_usage` return, from the static
variables `s`, one call per reading. -/
def sample_all (JIFFIES_PER_SEC : Int) : SamplerState → List StatReading → List Double
  | _, [] => []
  | s, r :: rs =>
    (get_cpu_usage JIFFIES_PER_SEC s r).1 ::
      sample_all JIFFIES_PER_SEC (get_cpu_usage JIFFIES_PER_SEC s r).2 rs

/-- The static variables after successive calls of `get_cpu_usage`. -/
def sampler_after (JIFFIES_PER_SEC : Int) : SamplerState → List StatReading → SamplerState
  | s, [] => s
  | s, r :: rs => sampler_after JIFFIES_PER_SEC (get_cpu_usage JIFFIES_PER_SEC s r).2 rs

/-- The expression `1 - idle_diff / time_diff` of `get_cpu_usage` for the
previous reading `p` and the current reading `c`. -/
def usage_between (JIFFIES_PER_SEC : Int) (p c : StatReading) : Double :=
  sub (ofInt 1)
    (div
      (div (ofInt (toULong ((c.idle_jiffies : Int) - p.idle_jiffies))) (ofInt JIFFIES_PER_SEC))
      (div (ofInt (subtract_timevals c.tv p.tv)) (ofInt 1000000)))

/-- The value the specification gives for call `i` of `get_cpu_usage`: 0
for the first call, and for every later call `1 - idle_diff / time_diff`
against the reading of the call before when the elapsed time is positive,
0 otherwise. -/
def spec_usage (JIFFIES_PER_SEC : Int) (rs : List StatReading) (i : Nat) : Option Double :=
  match i with
  | 0 => rs.head?.map (fun _ => ofInt 0)
  | j + 1 =>
    match rs[j]?, rs[j + 1]? with
    | some p, some c =>
      some (if ((c.tv.tv_usec - p.tv.tv_usec) + (c.tv.tv_sec - p.tv.tv_sec) * 1000000 > 0)
        then usage_between JIFFIES_PER_SEC p c else ofInt 0)
    | _, _ => none

/-- The value `get_cpu_usage` returns for the reading `c` when the reading
stored by the call before is `p`: 0 when the stored idle counter is 0, which
the function takes for "no previous sample"; otherwise
`1 - idle_diff / time_diff` when the `unsigned long` count of elapsed
microseconds is positive, and 0 when it is not. -/
def usage_pair (JIFFIES_PER_SEC : Int) (p c : StatReading) : Double :=
  if p.idle_jiffies = 0 then ofInt 0
  else if 0 < subtract_timevals c.tv p.tv then usage_between JIFFIES_PER_SEC p c else ofInt 0

/-- The value that call `i` of `get_cpu_usage` returns, by the readings of
the calls: 0 for the first call, `usage_pair` of the readings `i - 1` and
`i` for a later call. -/
def usage_of_call (JIFFIES_PER_SEC : Int) (rs : List StatReading) (i : Nat) : Option Double :=
  match i with
  | 0 => rs.head?.map (fun _ => ofInt 0)
  | j + 1 =>
    match rs[j]?, rs[j + 1]? with
    | some p, some c => some (usage_pair JIFFIES_PER_SEC p c)
    | _, _ => none

/-! ## The process enumerator -/

/-- The test `strtok (d_name, "0123456789")` of `update_pidlist` gives NULL:
no character of the name is outside the delimiter set. -/
def strtok_null (d_name : String) : Bool :=
  d_name.toList.all (fun c => "0123456789".toList.contains c)

/-- The decimal value of a string of digits. -/
def decimal (d_name : String) : Nat :=
  d_name.toList.foldl (fun acc c => 10 * acc + (c.toNat - '0'.toNat)) 0

/-- The call `atoi (d_name)` on a name made of digits only, as the C library
computes it: `strtol` saturating at `LONG_MAX`, then the conversion to `int`
(32 bits, two's complement). -/
def atoi (d_name : String) : Int :=
  ((((min (decimal d_name) (2 ^ 63 - 1) : Nat) : Int) + 2 ^ 31) % 2 ^ 32) - 2 ^ 31

/-- The process table as one call of `update_pidlist` sees it: the names
`readdir` gives, in order, and for a process id the `st_uid` that
`stat ("/proc/<pid>")` stores, `none` when the call fails. -/
structure ProcTable where
  listing : List String
  owner : Int → Option Nat

/-- The `while` loop of `update_pidlist` over the remaining entries.
`st_uid` is the content of `statbuf.st_uid` before the pass: `stat` writes
the buffer only when it succeeds and its result is not tested, so a failed
call leaves the content of the stack slot in place.  `pids` is
`pidlist_pids[0 .. pidlist_count)`. -/
def pidlist_loop (owner : Int → Option Nat) : List String → Nat → List Int → List Int
  | [], _, pids => pids
  | d_name :: rest, st_uid, pids =>
    if !strtok_null d_name then
      pidlist_loop owner rest st_uid pids
    else
      let pid := atoi d_name
      let st_uid' := match owner pid with
        | some uid => uid
        | none => st_uid
      let pids' := if st_uid' > 0 then pids ++ [pid] else pids
      if pids'.length ≥ PIDLIST_SIZE then pids' else pidlist_loop owner rest st_uid' pids'

/-- The function `update_pidlist` once `opendir` has succeeded: the process
set `pidlist_pids[0 .. pidlist_count)` it leaves.  `stack` is the content of
the uninitialised `statbuf.st_uid` on entry. -/
def update_pidlist (pt : ProcTable) (stack : Nat) : List Int :=
  pidlist_loop pt.owner pt.listing stack []

/-- The entry qualifies: its name is made of decimal digits only and the
owner of the process it names has a uid greater than 0. -/
def qualifies (pt : ProcTable) (d_name : String) : Bool :=
  strtok_null d_name &&
    (match pt.owner (decimal d_name) with
      | some uid => decide (uid > 0)
      | none => false)

/-! ## The main loop -/

/-- The two signals `main` sends. -/
inductive Sig where
  | SIGSTOP
  | SIGCONT
  deriving DecidableEq

/-- An effect of the main loop on its environment. -/
inductive Event where
  | kill (pid : Int) (sig : Sig)
  | nanosleep (tv_nsec : Int)
  deriving DecidableEq

/-- What the environment supplies to one pass of the loop body: the reading
of `/proc/stat` (`none` when `fopen` or `fgets` fails), the process table
(`none` when `opendir` fails) and the content of the stack slot of
`statbuf.st_uid`. -/
structure IterInput where
  stat : Option StatReading
  proc : Option ProcTable
  stack : Nat

/-- The program points of `main` between which a signal can be delivered. -/
inductive PC where
  | top
  | stopping (i : Nat)
  | resuming (i : Nat)
  | exited (status : Nat)
  deriving DecidableEq

/-- The state of the program at a program point, with the effects so far. -/
structure Machine where
  pc : PC
  running : Bool
  target_cpu_usage : Double
  sampler : SamplerState
  pidlist : List Int
  time_running : Int
  time_sleeping : Int
  trace : List Event

/-- The state when `main` reaches the loop for the first time. -/
def Machine.init : Machine :=
  { pc := PC.top, running := true, target_cpu_usage := CPU_T1MICRO,
    sampler := SamplerState.init, pidlist := [], time_running := 0, time_sleeping := 0,
    trace := [] }

/-- The function `signal_handler`: it clears `running` and nothing else. -/
def signal_handler (m : Machine) : Machine := { m with running := false }

/-- What happens between two program points: whether `SIGINT`, `SIGQUIT` or
`SIGTERM` is delivered before the step, and the input of the environment,
read only by the step that starts a pass of the loop body. -/
structure StepInput where
  signal : Bool
  iter : IterInput

/-- One step of `main` from a program point.
* `top`: the test `while (running)`, and on entry lines 190-202: the
  sampler, the controller step, the quantum split and `update_pidlist`;
  a failed read exits with `EXIT_FAILURE`, a cleared flag with
  `EXIT_SUCCESS`.
* `stopping i`: one pass of the first `for` loop, and after its last pass
  the first `nanosleep`.
* `resuming i`: one pass of the second `for` loop, and after its last pass
  the second `nanosleep`, back to the test. -/
def step (JIFFIES_PER_SEC : Int) (m : Machine) (x : IterInput) : Machine :=
  match m.pc with
  | PC.top =>
    if !m.running then { m with pc := PC.exited 0 }
    else
      match x.stat with
      | none => { m with pc := PC.exited 1 }
      | some r =>
        let (u, s') := get_cpu_usage JIFFIES_PER_SEC m.sampler r
        let target := controller_step m.target_cpu_usage u
        let (tr, ts) := quantum_split target
        match x.proc with
        | none =>
          { m with pc := PC.exited 1, target_cpu_usage := target, sampler := s',
                   time_running := tr, time_sleeping := ts }
        | some pt =>
          { m with pc := PC.stopping 0, target_cpu_usage := target, sampler := s',
                   time_running := tr, time_sleeping := ts,
                   pidlist := update_pidlist pt x.stack }
  | PC.stopping i =>
    match m.pidlist[i]? with
    | some pid => { m with pc := PC.stopping (i + 1),
                           trace := m.trace ++ [Event.kill pid Sig.SIGSTOP] }
    | none => { m with pc := PC.resuming 0,
                       trace := m.trace ++ [Event.nanosleep m.time_sleeping] }
  | PC.resuming i =>
    match m.pidlist[i]? with
    | some pid => { m with pc := PC.resuming (i + 1),
                           trace := m.trace ++ [Event.kill pid Sig.SIGCONT] }
    | none => { m with pc := PC.top,
                       trace := m.trace ++ [Event.nanosleep m.time_running] }
  | PC.exited _ => m

/-- A step with the signal delivery before it. -/
def step_async (JIFFIES_PER_SEC : Int) (m : Machine) (x : StepInput) : Machine :=
  match m.pc with
  | PC.exited _ => m
  | _ => step JIFFIES_PER_SEC (if x.signal then signal_handler m else m) x.iter

/-- The run of `main` from the state `m` over a schedule of steps. -/
def exec (JIFFIES_PER_SEC : Int) (m : Machine) (xs : List StepInput) : Machine :=
  xs.foldl (step_async JIFFIES_PER_SEC) m

/-- The effects of one full pass of the loop body for the process set
`pids`, the suspend duration `ts` and the run duration `tr`. -/
def pass_events (pids : List Int) (ts tr : Int) : List Event :=
  pids.map (fun p => Event.kill p Sig.SIGSTOP) ++ [Event.nanosleep ts] ++
    pids.map (fun p => Event.kill p Sig.SIGCONT) ++ [Event.nanosleep tr]

/-- The reading is the setpoint within floating tolerance: a positive finite
double at most `2^-50` from `CPU_T1MICRO`. -/
def near_setpoint (u : Double) : Bool :=
  match u, CPU_T1MICRO with
  | fin false b, fin false c => decide (c - pow2 (-50) ≤ b ∧ b ≤ c + pow2 (-50))
  | _, _ => false

/-- The schedule of one pass of the loop body with no signal delivered: the
step that enters the pass with the reading, the process table and the stack
content of `p`, then one step for each signal sent and each `nanosleep`. -/
def quiet_pass (p : StatReading × ProcTable × Nat) : List StepInput :=
  ⟨false, ⟨some p.1, some p.2.1, p.2.2⟩⟩ ::
    List.replicate (2 * (update_pidlist p.2.1 p.2.2).length + 2) ⟨false, ⟨none, none, 0⟩⟩

/-- The schedule of successive passes of the loop body with no signal
delivered, one pass per element of `ps`. -/
def quiet_run (ps : List (StatReading × ProcTable × Nat)) : List StepInput :=
  (ps.map quiet_pass).flatten

/-! ## Example inputs -/

/-- A process table with a process of root, two processes of other users and
entries that are not processes. -/
def example_table : ProcTable :=
  ⟨[".", "..", "1", "100", "self", "200"],
    fun pid => if pid = 1 then some 0 else if pid = 100 then some 1000
      else if pid = 200 then some 33 else none⟩

/-- A process table in which process 200 has exited when `stat` is called,
after a successful lookup of a process of uid 1000. -/
def vanished_table : ProcTable :=
  ⟨["100", "200"], fun pid => if pid = 100 then some 1000 else none⟩

/-- A process table in which process 200 has exited when `stat` is called,
after a successful lookup of a process of root. -/
def vanished_after_root : ProcTable :=
  ⟨["1", "200"], fun pid => if pid = 1 then some 0 else none⟩

/-- A step that starts a pass of the loop body on `example_table`, with no
signal delivered before it. -/
def entry_step : StepInput := ⟨false, ⟨some ⟨1000, ⟨0, 0⟩⟩, some example_table, 0⟩⟩

/-- A step before which no signal is delivered. -/
def quiet_step : StepInput := ⟨false, ⟨none, none, 0⟩⟩

/-- Two readings one second apart with the idle counter grown by 1000 ticks:
ten seconds of idle time at 100 ticks per second. -/
def fast_idle_readings : List StatReading := [⟨100, ⟨0, 0⟩⟩, ⟨1100, ⟨1, 0⟩⟩]

/-- Two readings one second apart, the first with the idle counter 0. -/
def zero_idle_readings : List StatReading := [⟨0, ⟨0, 0⟩⟩, ⟨50, ⟨1, 0⟩⟩]

/-- Two readings with the idle counter grown by 50 ticks and the second
timestamp one second before the first. -/
def backward_readings : List StatReading := [⟨100, ⟨10, 0⟩⟩, ⟨150, ⟨9, 0⟩⟩]

/-- Four passes at 30% load with 100 ticks per second: after the first
reading, 70 idle ticks in each second. -/
def setpoint_run : List (StatReading × ProcTable × Nat) :=
  [(⟨1000, ⟨0, 0⟩⟩, example_table, 0), (⟨1070, ⟨1, 0⟩⟩, example_table, 0),
    (⟨1140, ⟨2, 0⟩⟩, example_table, 0), (⟨1210, ⟨3, 0⟩⟩, example_table, 0)]

/-! ## Rounding: the binary logarithm -/

theorem pow2_eq (k : Int) : pow2 k = (2 : ℚ) ^ k := by
  unfold pow2
  split_ifs with h
  · obtain ⟨n, rfl⟩ := Int.eq_ofNat_of_zero_le h
    simp
  · obtain ⟨n, hn⟩ := Int.eq_ofNat_of_zero_le (show 0 ≤ -k by omega)
    have hk : k = -(n : ℤ) := by omega
    subst hk
    simp

theorem pow2_pos (k : Int) : 0 < pow2 k := by
  rw [pow2_eq]; positivity

theorem pow2_add (a b : Int) : pow2 (a + b) = pow2 a * pow2 b := by
  simp only [pow2_eq]; exact zpow_add₀ (by norm_num) a b

theorem pow2_le_iff (a b : Int) : pow2 a ≤ pow2 b ↔ a ≤ b := by
  simp only [pow2_eq]; exact zpow_le_zpow_iff_right₀ (by norm_num)

theorem pow2_lt_iff (a b : Int) : pow2 a < pow2 b ↔ a < b := by
  simp only [pow2_eq]; exact zpow_lt_zpow_iff_right₀ (by norm_num)

theorem pow2_natCast (n : Nat) : pow2 (n : Int) = ((2 ^ n : Nat) : ℚ) := by
  rw [pow2_eq]; simp

theorem log2f_spec : ∀ (fuel n : Nat), n ≤ fuel → 1 ≤ n →
    2 ^ log2f fuel n ≤ n ∧ n < 2 ^ (log2f fuel n + 1) := by
  intro fuel
  induction fuel with
  | zero => intro n h1 h2; omega
  | succ f ih =>
    intro n h1 h2
    unfold log2f
    split_ifs with h
    · have := ih (n / 2) (by omega) (by omega)
      constructor
      · rw [pow_succ]; omega
      · rw [pow_succ]; omega
    · simp; omega

theorem ilog2_spec (q : ℚ) (hq : 0 < q) :
    pow2 (ilog2 q) ≤ q ∧ q < pow2 (ilog2 q + 1) := by
  have hnum : 0 < q.num := Rat.num_pos.mpr hq
  have hden : 0 < q.den := q.den_pos
  obtain ⟨n, hn⟩ := Int.eq_ofNat_of_zero_le hnum.le
  have hn1 : 1 ≤ n := by omega
  have hna : q.num.natAbs = n := by omega
  obtain ⟨ha1, ha2⟩ := log2f_spec n n le_rfl hn1
  obtain ⟨hb1, hb2⟩ := log2f_spec q.den q.den le_rfl hden
  have hqv : q = (n : ℚ) / (q.den : ℚ) := by
    have := Rat.num_div_den q
    rw [hn] at this
    simpa using this.symm
  have hdq : (0 : ℚ) < (q.den : ℚ) := by exact_mod_cast hden
  set a := log2f n n with ha
  set b := log2f q.den q.den with hb
  have ha1q : ((2 ^ a : Nat) : ℚ) ≤ (n : ℚ) := by exact_mod_cast ha1
  have ha2q : (n : ℚ) < ((2 ^ (a + 1) : Nat) : ℚ) := by exact_mod_cast ha2
  have hb1q : ((2 ^ b : Nat) : ℚ) ≤ (q.den : ℚ) := by exact_mod_cast hb1
  have hb2q : (q.den : ℚ) < ((2 ^ (b + 1) : Nat) : ℚ) := by exact_mod_cast hb2
  rw [← pow2_natCast] at ha1q ha2q hb1q hb2q
  have hk : ilog2 q = if pow2 ((a : Int) - b) ≤ q then (a : Int) - b else (a : Int) - b - 1 := by
    unfold ilog2
    simp only [hna, ← ha, ← hb]
  rw [hk]
  split_ifs with h
  · refine ⟨h, ?_⟩
    -- q < 2^(a+1) / 2^b
    have e : pow2 ((a : Int) - b + 1) * pow2 b = pow2 ((a : Int) + 1) := by
      rw [← pow2_add]; congr 1; ring
    have hpb := pow2_pos (b : Int)
    rw [hqv, div_lt_iff₀ hdq]
    have hpos := pow2_pos ((a : Int) - b + 1)
    calc (n : ℚ) < pow2 (((a + 1 : Nat)) : Int) := ha2q
      _ = pow2 ((a : Int) - b + 1) * pow2 b := by rw [e]; congr 1
      _ ≤ pow2 ((a : Int) - b + 1) * (q.den : ℚ) := by
          exact mul_le_mul_of_nonneg_left hb1q hpos.le
  · refine ⟨?_, ?_⟩
    · have e : pow2 ((a : Int) - b - 1) * pow2 ((b + 1 : Nat) : Int) = pow2 (a : Int) := by
        rw [← pow2_add]; congr 1; push_cast; ring
      have hpos := pow2_pos ((a : Int) - b - 1)
      rw [hqv, le_div_iff₀ hdq]
      calc pow2 ((a : Int) - b - 1) * (q.den : ℚ)
          ≤ pow2 ((a : Int) - b - 1) * pow2 ((b + 1 : Nat) : Int) :=
            mul_le_mul_of_nonneg_left hb2q.le hpos.le
        _ = pow2 (a : Int) := e
        _ ≤ (n : ℚ) := ha1q
    · have : (a : Int) - b - 1 + 1 = (a : Int) - b := by ring
      rw [this]
      exact lt_of_not_le h

theorem ilog2_unique (q : ℚ) (e : Int) (h1 : pow2 e ≤ q) (h2 : q < pow2 (e + 1)) :
    ilog2 q = e := by
  have hq : 0 < q := lt_of_lt_of_le (pow2_pos e) h1
  obtain ⟨s1, s2⟩ := ilog2_spec q hq
  have a1 : pow2 (ilog2 q) < pow2 (e + 1) := lt_of_le_of_lt s1 h2
  have a2 : pow2 e < pow2 (ilog2 q + 1) := lt_of_le_of_lt h1 s2
  rw [pow2_lt_iff] at a1 a2
  omega

theorem ilog2_mono (x y : ℚ) (hx : 0 < x) (hxy : x ≤ y) : ilog2 x ≤ ilog2 y := by
  obtain ⟨s1, _⟩ := ilog2_spec x hx
  obtain ⟨_, t2⟩ := ilog2_spec y (lt_of_lt_of_le hx hxy)
  have : pow2 (ilog2 x) < pow2 (ilog2 y + 1) := lt_of_le_of_lt s1 (lt_of_le_of_lt hxy t2)
  rw [pow2_lt_iff] at this
  omega

/-! ## Rounding: nearest integer, ties to even -/

theorem rne_floor_le (q : ℚ) : ⌊q⌋ ≤ rne q := by
  unfold rne
  simp only []
  split_ifs <;> omega

theorem rne_le_floor_succ (q : ℚ) : rne q ≤ ⌊q⌋ + 1 := by
  unfold rne
  simp only []
  split_ifs <;> omega

theorem rne_intCast (n : Int) : rne (n : ℚ) = n := by
  unfold rne
  simp

theorem rne_mono {a b : ℚ} (h : a ≤ b) : rne a ≤ rne b := by
  have hf : ⌊a⌋ ≤ ⌊b⌋ := Int.floor_mono h
  rcases hf.lt_or_eq with hlt | heq
  · have h1 := rne_le_floor_succ a
    have h2 := rne_floor_le b
    omega
  · have hc : ((⌊a⌋ : Int) : ℚ) = ((⌊b⌋ : Int) : ℚ) := by rw [heq]
    unfold rne
    simp only []
    rw [← heq]
    split_ifs <;> first | omega | (exfalso; linarith)

theorem rne_le_of_le {q : ℚ} {n : Int} (h : q ≤ (n : ℚ)) : rne q ≤ n := by
  have := rne_mono h
  rwa [rne_intCast] at this

theorem le_rne_of_le {q : ℚ} {n : Int} (h : (n : ℚ) ≤ q) : n ≤ rne q := by
  have := rne_mono h
  rwa [rne_intCast] at this

/-! ## Rounding to the binary64 grid -/

theorem ulpExp_ge (q : ℚ) : -1074 ≤ ulpExp q := by
  unfold ulpExp
  have := le_max_right (ilog2 q) (-1022)
  omega

theorem ulpExp_mono (x y : ℚ) (hx : 0 < x) (hxy : x ≤ y) : ulpExp x ≤ ulpExp y := by
  unfold ulpExp
  have := ilog2_mono x y hx hxy
  have := max_le_max_right (-1022) this
  omega

theorem lt_pow2_ulpExp (q : ℚ) (hq : 0 < q) : q < pow2 (ulpExp q + 53) := by
  obtain ⟨_, h2⟩ := ilog2_spec q hq
  refine lt_of_lt_of_le h2 ?_
  rw [pow2_le_iff]
  unfold ulpExp
  have := le_max_left (ilog2 q) (-1022)
  omega

theorem pow2_ulpExp_le (q : ℚ) (hq : 0 < q) (hn : -1074 < ulpExp q) :
    pow2 (ulpExp q + 52) ≤ q := by
  obtain ⟨h1, _⟩ := ilog2_spec q hq
  have : ulpExp q + 52 = ilog2 q := by
    unfold ulpExp at hn ⊢
    rcases max_cases (ilog2 q) (-1022) with ⟨h, _⟩ | ⟨h, _⟩ <;> omega
  rw [this]
  exact h1

/-- A grid point of the binade of `x` below `x` stays below its rounding. -/
theorem grid_le_roundMag (x : ℚ) (hx : 0 < x) (n : Int)
    (h : (n : ℚ) * pow2 (ulpExp x) ≤ x) : (n : ℚ) * pow2 (ulpExp x) ≤ roundMag x := by
  have hu := pow2_pos (ulpExp x)
  unfold roundMag
  rw [if_neg hx.ne']
  have h1 : (n : ℚ) ≤ x / pow2 (ulpExp x) := by rwa [le_div_iff₀ hu]
  have h2 : n ≤ rne (x / pow2 (ulpExp x)) := le_rne_of_le h1
  have h3 : (n : ℚ) ≤ (rne (x / pow2 (ulpExp x)) : ℚ) := by exact_mod_cast h2
  exact mul_le_mul_of_nonneg_right h3 hu.le

/-- A grid point of the binade of `x` above `x` stays above its rounding. -/
theorem roundMag_le_grid (x : ℚ) (hx : 0 < x) (n : Int)
    (h : x ≤ (n : ℚ) * pow2 (ulpExp x)) : roundMag x ≤ (n : ℚ) * pow2 (ulpExp x) := by
  have hu := pow2_pos (ulpExp x)
  unfold roundMag
  rw [if_neg hx.ne']
  have h1 : x / pow2 (ulpExp x) ≤ (n : ℚ) := by rwa [div_le_iff₀ hu]
  have h2 : rne (x / pow2 (ulpExp x)) ≤ n := rne_le_of_le h1
  have h3 : (rne (x / pow2 (ulpExp x)) : ℚ) ≤ (n : ℚ) := by exact_mod_cast h2
  exact mul_le_mul_of_nonneg_right h3 hu.le

theorem roundMag_zero : roundMag 0 = 0 := by
  unfold roundMag; simp

theorem roundMag_nonneg (x : ℚ) (hx : 0 ≤ x) : 0 ≤ roundMag x := by
  rcases hx.lt_or_eq with h | h
  · have := grid_le_roundMag x h 0 (by simpa using h.le)
    simpa using this
  · rw [← h, roundMag_zero]

theorem pow2_53_cast : ((2 ^ 53 : Int) : ℚ) = pow2 53 := by
  rw [pow2_eq]; norm_num

theorem pow2_52_cast : ((2 ^ 52 : Int) : ℚ) = pow2 52 := by
  rw [pow2_eq]; norm_num

theorem roundMag_le_top (x : ℚ) (hx : 0 < x) : roundMag x ≤ pow2 (ulpExp x + 53) := by
  have e : pow2 (ulpExp x + 53) = ((2 ^ 53 : Int) : ℚ) * pow2 (ulpExp x) := by
    rw [pow2_53_cast, ← pow2_add]; congr 1; ring
  rw [e]
  apply roundMag_le_grid x hx
  rw [← e]
  exact (lt_pow2_ulpExp x hx).le

theorem bot_le_roundMag (x : ℚ) (hx : 0 < x) (hn : -1074 < ulpExp x) :
    pow2 (ulpExp x + 52) ≤ roundMag x := by
  have e : pow2 (ulpExp x + 52) = ((2 ^ 52 : Int) : ℚ) * pow2 (ulpExp x) := by
    rw [pow2_52_cast, ← pow2_add]; congr 1; ring
  rw [e]
  apply grid_le_roundMag x hx
  rw [← e]
  exact pow2_ulpExp_le x hx hn

/-- Rounding is monotone. -/
theorem roundMag_mono {x y : ℚ} (hx : 0 ≤ x) (hxy : x ≤ y) : roundMag x ≤ roundMag y := by
  rcases hx.lt_or_eq with hpos | hz
  · have hy : 0 < y := lt_of_lt_of_le hpos hxy
    have hE := ulpExp_mono x y hpos hxy
    rcases hE.lt_or_eq with hlt | heq
    · have h1 := roundMag_le_top x hpos
      have h2 := bot_le_roundMag y hy (by have := ulpExp_ge x; omega)
      have h3 : pow2 (ulpExp x + 53) ≤ pow2 (ulpExp y + 52) := by
        rw [pow2_le_iff]; omega
      linarith
    · have hu := pow2_pos (ulpExp y)
      unfold roundMag
      rw [if_neg hpos.ne', if_neg hy.ne', heq]
      have h1 : x / pow2 (ulpExp y) ≤ y / pow2 (ulpExp y) :=
        div_le_div_of_nonneg_right hxy hu.le
      have h2 : (rne (x / pow2 (ulpExp y)) : ℚ) ≤ (rne (y / pow2 (ulpExp y)) : ℚ) := by
        exact_mod_cast rne_mono h1
      exact mul_le_mul_of_nonneg_right h2 hu.le
  · rw [← hz, roundMag_zero]
    exact roundMag_nonneg y (by linarith)

/-- A magnitude `n * 2^e` with a significand below `2^53` and an exponent of
at least `-1074` is on the binary64 grid: rounding leaves it unchanged. -/
theorem roundMag_fix (n : Nat) (e : Int) (hn : n < 2 ^ 53) (he : -1074 ≤ e) :
    roundMag ((n : ℚ) * pow2 e) = (n : ℚ) * pow2 e := by
  rcases Nat.eq_zero_or_pos n with h0 | hpos
  · subst h0; simp [roundMag_zero]
  · have hpe := pow2_pos e
    have hnq : (0 : ℚ) < (n : ℚ) := by exact_mod_cast hpos
    obtain ⟨r, hrdef⟩ : ∃ r : ℚ, r = (n : ℚ) * pow2 e := ⟨_, rfl⟩
    rw [← hrdef]
    have hr : 0 < r := by rw [hrdef]; exact mul_pos hnq hpe
    -- the unit in the last place of r is at most 2^e
    have hlt : r < pow2 (e + 53) := by
      have : (n : ℚ) < pow2 53 := by
        rw [← pow2_53_cast]; exact_mod_cast hn
      rw [show e + 53 = 53 + e by ring, pow2_add, hrdef]
      exact mul_lt_mul_of_pos_right this hpe
    have hE : ulpExp r ≤ e := by
      obtain ⟨s1, _⟩ := ilog2_spec r hr
      have : pow2 (ilog2 r) < pow2 (e + 53) := lt_of_le_of_lt s1 hlt
      rw [pow2_lt_iff] at this
      unfold ulpExp
      rcases max_cases (ilog2 r) (-1022) with ⟨h, _⟩ | ⟨h, _⟩ <;> omega
    obtain ⟨k, hk⟩ := Int.eq_ofNat_of_zero_le (show 0 ≤ e - ulpExp r by omega)
    have hu := pow2_pos (ulpExp r)
    have hsplit : pow2 e = pow2 (k : Int) * pow2 (ulpExp r) := by
      rw [← pow2_add]; congr 1; omega
    have hdiv : r / pow2 (ulpExp r) = (((n * 2 ^ k : Nat) : Int) : ℚ) := by
      rw [div_eq_iff hu.ne']
      calc r = (n : ℚ) * pow2 e := hrdef
        _ = (n : ℚ) * (pow2 (k : Int) * pow2 (ulpExp r)) := by rw [hsplit]
        _ = (((n * 2 ^ k : Nat) : Int) : ℚ) * pow2 (ulpExp r) := by
            rw [pow2_natCast]; push_cast; ring
    unfold roundMag
    rw [if_neg hr.ne', hdiv, rne_intCast, ← hdiv]
    field_simp

/-- Every rounded magnitude has the form `n * 2^e` with a significand below
`2^53` and an exponent of at least `-1074`. -/
theorem roundMag_form (q : ℚ) (hq : 0 ≤ q) :
    ∃ (n : Nat) (e : Int), n < 2 ^ 53 ∧ -1074 ≤ e ∧ roundMag q = (n : ℚ) * pow2 e := by
  rcases hq.lt_or_eq with hpos | hz
  · have hu := pow2_pos (ulpExp q)
    have hle : rne (q / pow2 (ulpExp q)) ≤ 2 ^ 53 := by
      apply rne_le_of_le
      rw [div_le_iff₀ hu, pow2_53_cast, ← pow2_add,
        show (53 : Int) + ulpExp q = ulpExp q + 53 by ring]
      exact (lt_pow2_ulpExp q hpos).le
    have hge : 0 ≤ rne (q / pow2 (ulpExp q)) := by
      apply le_rne_of_le
      simpa using (div_pos hpos hu).le
    obtain ⟨m, hm⟩ := Int.eq_ofNat_of_zero_le hge
    have hval : roundMag q = (m : ℚ) * pow2 (ulpExp q) := by
      unfold roundMag
      rw [if_neg hpos.ne', hm]
      simp
    rcases hle.lt_or_eq with hlt | heq
    · exact ⟨m, ulpExp q, by omega, ulpExp_ge q, hval⟩
    · refine ⟨2 ^ 52, ulpExp q + 1, by norm_num, by have := ulpExp_ge q; omega, ?_⟩
      have hm53 : m = 2 ^ 53 := by omega
      rw [hval, hm53, pow2_add]
      have : pow2 1 = 2 := by rw [pow2_eq]; norm_num
      rw [this]
      push_cast
      ring
  · exact ⟨0, 0, by norm_num, by norm_num, by rw [← hz, roundMag_zero]; simp⟩

/-- Rounding is idempotent. -/
theorem roundMag_idem (q : ℚ) (hq : 0 ≤ q) : roundMag (roundMag q) = roundMag q := by
  obtain ⟨n, e, hn, he, h⟩ := roundMag_form q hq
  rw [h]
  exact roundMag_fix n e hn he

/-- The rounding to an integer goes down from at most one half above the
floor and up from at least one half above it. -/
theorem rne_cases (q : ℚ) :
    (rne q = ⌊q⌋ ∧ q - ((⌊q⌋ : Int) : ℚ) ≤ 1 / 2) ∨
      (rne q = ⌊q⌋ + 1 ∧ 1 / 2 ≤ q - ((⌊q⌋ : Int) : ℚ)) := by
  unfold rne
  simp only []
  split_ifs with a1 a2 a3
  · exact Or.inl ⟨rfl, a1.le⟩
  · exact Or.inr ⟨rfl, a2.le⟩
  · exact Or.inl ⟨rfl, not_lt.mp a2⟩
  · exact Or.inr ⟨rfl, not_lt.mp a1⟩

/-- The rounding to an integer is to a nearest one: no integer is closer. -/
theorem rne_nearest (q : ℚ) (k : Int) : |q - (rne q : ℚ)| ≤ |q - (k : ℚ)| := by
  have h1 : ((⌊q⌋ : Int) : ℚ) ≤ q := Int.floor_le q
  have h2 : q < ((⌊q⌋ : Int) : ℚ) + 1 := Int.lt_floor_add_one q
  have hup : q - (k : ℚ) ≤ |q - (k : ℚ)| := le_abs_self _
  have hdn : -(q - (k : ℚ)) ≤ |q - (k : ℚ)| := neg_le_abs _
  have hk : (k : ℚ) ≤ ((⌊q⌋ : Int) : ℚ) ∨ ((⌊q⌋ : Int) : ℚ) + 1 ≤ (k : ℚ) := by
    rcases le_or_lt k ⌊q⌋ with h | h
    · exact Or.inl (by exact_mod_cast h)
    · have : ⌊q⌋ + 1 ≤ k := by omega
      exact Or.inr (by exact_mod_cast this)
  rcases rne_cases q with ⟨e, hr⟩ | ⟨e, hr⟩
  · rw [e, abs_of_nonneg (show (0 : ℚ) ≤ q - ((⌊q⌋ : Int) : ℚ) by linarith)]
    rcases hk with h | h <;> linarith
  · rw [e, abs_of_nonpos (show q - (((⌊q⌋ + 1 : Int)) : ℚ) ≤ 0 by push_cast; linarith)]
    push_cast
    rcases hk with h | h <;> linarith

/-- The rounding to an integer moves a value by at most one half. -/
theorem rne_half (x : ℚ) : |x - (rne x : ℚ)| ≤ 1 / 2 := by
  have h1 : ((⌊x⌋ : Int) : ℚ) ≤ x := Int.floor_le x
  have h2 : x < ((⌊x⌋ : Int) : ℚ) + 1 := Int.lt_floor_add_one x
  have a := rne_nearest x ⌊x⌋
  have b := rne_nearest x (⌊x⌋ + 1)
  rw [abs_of_nonneg (show (0 : ℚ) ≤ x - ((⌊x⌋ : Int) : ℚ) by linarith)] at a
  rw [abs_of_nonpos (show x - (((⌊x⌋ + 1 : Int)) : ℚ) ≤ 0 by push_cast; linarith)] at b
  push_cast at b
  linarith

/-- The rounding error is at most half a unit in the last place. -/
theorem roundMag_error (q : ℚ) (hq : 0 < q) :
    |q - roundMag q| ≤ pow2 (ulpExp q) / 2 := by
  have hu := pow2_pos (ulpExp q)
  have hf := rne_half (q / pow2 (ulpExp q))
  have e : q - roundMag q =
      (q / pow2 (ulpExp q) - (rne (q / pow2 (ulpExp q)) : ℚ)) * pow2 (ulpExp q) := by
    unfold roundMag
    rw [if_neg hq.ne', sub_mul, div_mul_cancel₀ _ hu.ne']
  rw [e, abs_mul, abs_of_pos hu]
  calc |q / pow2 (ulpExp q) - (rne (q / pow2 (ulpExp q)) : ℚ)| * pow2 (ulpExp q)
      ≤ 1 / 2 * pow2 (ulpExp q) := mul_le_mul_of_nonneg_right hf hu.le
    _ = pow2 (ulpExp q) / 2 := by ring

/-- The magnitudes that rounding leaves unchanged are those of the form
`n * 2^e` with a significand below `2^53` and an exponent of at least
`-1074`. -/
theorem roundMag_eq_self_iff (a : ℚ) (ha : 0 ≤ a) :
    roundMag a = a ↔ ∃ (n : Nat) (e : Int), n < 2 ^ 53 ∧ -1074 ≤ e ∧ a = (n : ℚ) * pow2 e := by
  constructor
  · intro h
    obtain ⟨n, e, hn, he, hv⟩ := roundMag_form a ha
    exact ⟨n, e, hn, he, by rw [← hv, h]⟩
  · rintro ⟨n, e, hn, he, rfl⟩
    exact roundMag_fix n e hn he

/-! ## Doubles: constants and elementary facts -/

set_option maxRecDepth 100000

theorem CPU_MAX_eq : CPU_MAX = fin false 1 := by decide!

theorem CPU_MIN_eq : CPU_MIN = fin false (5764607523034235 / 576460752303423488) := by decide!

theorem CPU_T1MICRO_eq : CPU_T1MICRO = fin false (5404319552844595 / 18014398509481984) := by
  decide!

theorem ofInt_zero : ofInt 0 = fin false 0 := by decide!

theorem ofInt_one : ofInt 1 = fin false 1 := by decide!

theorem roundMag_one : roundMag 1 = 1 := by decide!

theorem sval_false (a : ℚ) : sval false a = a := rfl

theorem sval_true (a : ℚ) : sval true a = -a := rfl

theorem ofMag_cases (s : Bool) (q : ℚ) :
    (ofMag s q = inf s ∧ pow2 1024 ≤ roundMag q) ∨
      (ofMag s q = fin s (roundMag q) ∧ roundMag q < pow2 1024) := by
  unfold ofMag
  split_ifs with h
  · exact Or.inl ⟨rfl, h⟩
  · exact Or.inr ⟨rfl, lt_of_not_le h⟩

theorem ofMag_ne_nan (s : Bool) (q : ℚ) : ofMag s q ≠ nan := by
  rcases ofMag_cases s q with ⟨h, _⟩ | ⟨h, _⟩ <;> rw [h] <;> simp

theorem mul_pos_const_ne_nan (x : Double) (c : ℚ) (hx : x ≠ nan) (hc : c ≠ 0) :
    Double.mul x (fin false c) ≠ nan := by
  cases x with
  | nan => exact absurd rfl hx
  | inf s => simp [Double.mul, hc]
  | fin s a => simpa [Double.mul] using ofMag_ne_nan _ _

theorem div_ne_nan (s : Bool) (a : ℚ) (ha : a ≠ 0) (u : Double) (hu : u ≠ nan) :
    Double.div (fin s a) u ≠ nan := by
  cases u with
  | nan => exact absurd rfl hu
  | inf t => simp [Double.div]
  | fin t b =>
    by_cases hb : b = 0
    · simp [Double.div, hb, ha]
    · simpa [Double.div, hb] using ofMag_ne_nan _ _

/-- The two clamp comparisons of lines 191-194. -/
theorem controller_step_eq (t u : Double) :
    controller_step t u =
      (if lt (if gt (preclamp t u) CPU_MAX then CPU_MAX else preclamp t u) CPU_MIN then CPU_MIN
        else (if gt (preclamp t u) CPU_MAX then CPU_MAX else preclamp t u)) := rfl

theorem inRange_CPU_MAX : inRange CPU_MAX = true := by decide!

theorem inRange_CPU_MIN : inRange CPU_MIN = true := by decide!

theorem inRange_CPU_T1MICRO : inRange CPU_T1MICRO = true := by decide!

/-- The clamp brings every double that is not a NaN into the range. -/
theorem clamp_inRange (x : Double) (hx : x ≠ nan) :
    inRange (if lt (if gt x CPU_MAX then CPU_MAX else x) CPU_MIN then CPU_MIN
        else (if gt x CPU_MAX then CPU_MAX else x)) = true := by
  have hmax : lt CPU_MAX CPU_MIN = false := by decide!
  cases h1 : gt x CPU_MAX with
  | true =>
    simp only [if_true, hmax, Bool.false_eq_true, if_false]
    exact inRange_CPU_MAX
  | false =>
    simp only [Bool.false_eq_true, if_false]
    cases h2 : lt x CPU_MIN with
    | true =>
      simp only [if_true]
      exact inRange_CPU_MIN
    | false =>
      simp only [Bool.false_eq_true, if_false]
      cases x with
      | nan => exact absurd rfl hx
      | inf s =>
        cases s
        · simp [Double.gt, Double.lt, CPU_MAX_eq] at h1
        · simp [Double.lt, CPU_MIN_eq] at h2
      | fin s a =>
        simp only [Double.gt, Double.lt, CPU_MAX_eq, CPU_MIN_eq, decide_eq_false_iff_not, not_lt,
          sval_false] at h1 h2
        simp only [inRange, Double.le, CPU_MAX_eq, CPU_MIN_eq, Bool.and_eq_true,
          decide_eq_true_eq, sval_false]
        exact ⟨h2, h1⟩

/-- A double in the range is finite and not zero. -/
theorem inRange_fin (t : Double) (ht : inRange t = true) :
    ∃ s a, t = fin s a ∧ a ≠ 0 ∧
      (5764607523034235 / 576460752303423488 : ℚ) ≤ sval s a ∧ sval s a ≤ 1 := by
  cases t with
  | nan => simp [inRange, Double.le, CPU_MIN_eq] at ht
  | inf s => cases s <;> simp [inRange, Double.le, CPU_MIN_eq, CPU_MAX_eq] at ht
  | fin s a =>
    simp only [inRange, Double.le, CPU_MAX_eq, CPU_MIN_eq, Bool.and_eq_true,
      decide_eq_true_eq, sval_false] at ht
    refine ⟨s, a, rfl, ?_, ht.1, ht.2⟩
    rintro rfl
    have h := ht.1
    cases s <;> norm_num [sval] at h

theorem preclamp_ne_nan (t u : Double) (ht : inRange t = true) (hu : u ≠ nan) :
    preclamp t u ≠ nan := by
  obtain ⟨s, a, rfl, ha, _, _⟩ := inRange_fin t ht
  unfold preclamp
  rw [CPU_T1MICRO_eq]
  exact mul_pos_const_ne_nan _ _ (div_ne_nan s a ha u hu) (by norm_num)

theorem controller_step_inRange (t u : Double) (ht : inRange t = true) (hu : u ≠ nan) :
    inRange (controller_step t u) = true := by
  rw [controller_step_eq]
  exact clamp_inRange _ (preclamp_ne_nan t u ht hu)

/-! ## Doubles: order and rounding -/

theorem pow2_1024_gt (b : ℚ) (hb : b ≤ 2 ^ 64) : b < pow2 1024 := by
  have : (2 : ℚ) ^ 64 < pow2 1024 := by
    rw [show (2 : ℚ) ^ 64 = pow2 64 by rw [pow2_eq]; norm_num, pow2_lt_iff]; norm_num
  linarith

/-- Rounding a magnitude below a point of the grid gives a finite double
below that point. -/
theorem ofMag_le_bound (s : Bool) (q b : ℚ) (hq : 0 ≤ q) (hqb : q ≤ b) (hb : roundMag b = b)
    (hb2 : b ≤ 2 ^ 64) : ofMag s q = fin s (roundMag q) ∧ roundMag q ≤ b := by
  have h1 : roundMag q ≤ b := by
    have := roundMag_mono hq hqb
    rwa [hb] at this
  refine ⟨?_, h1⟩
  rcases ofMag_cases s q with ⟨_, h⟩ | ⟨h, _⟩
  · have := pow2_1024_gt b hb2
    linarith
  · exact h

theorem ofMag_le_ofMag (q1 q2 : ℚ) (h1 : 0 ≤ q1) (h12 : q1 ≤ q2) :
    le (ofMag false q1) (ofMag false q2) = true := by
  have hm := roundMag_mono h1 h12
  rcases ofMag_cases false q1 with ⟨e1, b1⟩ | ⟨e1, b1⟩ <;>
    rcases ofMag_cases false q2 with ⟨e2, b2⟩ | ⟨e2, b2⟩ <;> rw [e1, e2]
  · rfl
  · linarith
  · rfl
  · simp [Double.le, sval_false, hm]

/-- A double of the format in the range `[CPU_MIN, CPU_MAX]` is a positive
finite value that rounding leaves unchanged. -/
theorem inRange_valid (t : Double) (hv : isBinary64 t = true) (ht : inRange t = true) :
    ∃ a, t = fin false a ∧ (5764607523034235 / 576460752303423488 : ℚ) ≤ a ∧ a ≤ 1 ∧
      roundMag a = a := by
  obtain ⟨s, a, rfl, _, h1, h2⟩ := inRange_fin t ht
  simp only [isBinary64, decide_eq_true_eq] at hv
  cases s with
  | false => exact ⟨a, rfl, h1, h2, hv.2.1⟩
  | true =>
    rw [sval_true] at h1
    have : (0 : ℚ) < 5764607523034235 / 576460752303423488 := by norm_num
    linarith [hv.1]

theorem ofInt_quantum : ofInt SCHED_QUANTUM_NS = fin false 100000000 := by decide!

theorem roundMag_quantum : roundMag 100000000 = 100000000 := by decide!

theorem wrapLong_id (n : Int) (h1 : -2 ^ 63 ≤ n) (h2 : n < 2 ^ 63) : wrapLong n = n := by
  unfold wrapLong
  have : (n + 2 ^ 63) % 2 ^ 64 = n + 2 ^ 63 := Int.emod_eq_of_lt (by omega) (by omega)
  omega

/-- The run-phase length for a duty cycle in the range. -/
theorem time_running_bounds (a : ℚ) (h1 : 0 ≤ a) (h2 : a ≤ 1) :
    0 ≤ (quantum_split (fin false a)).1 ∧ (quantum_split (fin false a)).1 ≤ 100000000 := by
  have hq : (0 : ℚ) ≤ 100000000 * a := by positivity
  have hqb : 100000000 * a ≤ 100000000 := by linarith
  obtain ⟨e, hb⟩ := ofMag_le_bound false (100000000 * a) 100000000 hq hqb roundMag_quantum
    (by norm_num)
  have h0 := roundMag_nonneg _ hq
  have hrun : (quantum_split (fin false a)).1 =
      toLong (fin false (roundMag (100000000 * a))) := by
    simp only [quantum_split, ofInt_quantum, Double.mul, Bool.xor_false, e]
  rw [hrun]
  have hf0 : (0 : Int) ≤ ⌊roundMag (100000000 * a)⌋ := Int.floor_nonneg.mpr h0
  have hf1 : ⌊roundMag (100000000 * a)⌋ ≤ (100000000 : Int) := by
    have : ⌊roundMag (100000000 * a)⌋ ≤ ⌊(100000000 : ℚ)⌋ := Int.floor_mono hb
    have h2 : ⌊(100000000 : ℚ)⌋ = (100000000 : Int) := by
      simp
    omega
  simp only [toLong, Bool.false_eq_true, if_false]
  rw [if_pos (by constructor <;> omega)]
  exact ⟨hf0, hf1⟩

/-! ## The sampler -/

theorem toULong_le (n : Int) : ((toULong n : Nat) : ℚ) ≤ 2 ^ 64 := by
  have h : toULong n < 2 ^ 64 := by
    unfold toULong
    have := Int.emod_lt_of_pos n (show (0 : Int) < 2 ^ 64 by norm_num)
    have := Int.emod_nonneg n (show (2 : Int) ^ 64 ≠ 0 by norm_num)
    omega
  exact_mod_cast h.le

theorem roundMag_two64 : roundMag (2 ^ 64) = 2 ^ 64 := by decide!

/-- The conversion of an `unsigned long` to `double`. -/
theorem ofInt_nat (n : Nat) (h : (n : ℚ) ≤ 2 ^ 64) :
    ofInt (n : Int) = fin false (roundMag n) ∧ roundMag (n : ℚ) ≤ 2 ^ 64 := by
  have e : ofInt (n : Int) = ofMag false (n : ℚ) := by
    unfold ofInt
    have h1 : decide ((n : Int) < 0) = false := by simp
    rw [h1]
    congr 1
    simp
  rw [e]
  exact ofMag_le_bound false n (2 ^ 64) (by positivity) h roundMag_two64 le_rfl

/-- The conversion of a positive `long` to `double`. -/
theorem ofInt_pos (n : Int) (h : 0 < n) :
    ofInt n = inf false ∨ ∃ m : ℚ, ofInt n = fin false m ∧ 1 ≤ m := by
  have e : ofInt n = ofMag false (n : ℚ) := by
    unfold ofInt
    have h1 : decide (n < 0) = false := by simp; omega
    rw [h1, abs_of_pos h]
  rw [e]
  rcases ofMag_cases false (n : ℚ) with ⟨h1, _⟩ | ⟨h1, _⟩
  · exact Or.inl h1
  · refine Or.inr ⟨_, h1, ?_⟩
    have hn : (1 : ℚ) ≤ (n : ℚ) := by exact_mod_cast h
    have := roundMag_mono (by norm_num) hn
    rwa [roundMag_one] at this

theorem ofInt_million : ofInt 1000000 = fin false 1000000 := by decide!

/-- The quotient `idle_diff` is a finite non-negative double. -/
theorem idle_diff_fin (tps : Int) (htps : 0 < tps) (n : Nat) (hn : (n : ℚ) ≤ 2 ^ 64) :
    ∃ x : ℚ, Double.div (ofInt (n : Int)) (ofInt tps) = fin false x ∧ 0 ≤ x := by
  obtain ⟨e, hb⟩ := ofInt_nat n hn
  have h0 : 0 ≤ roundMag (n : ℚ) := roundMag_nonneg _ (by positivity)
  rw [e]
  rcases ofInt_pos tps htps with h | ⟨m, h, hm⟩
  · rw [h]; exact ⟨0, by simp [Double.div], le_rfl⟩
  · rw [h]
    have hm0 : m ≠ 0 := by linarith
    have hq : 0 ≤ roundMag (n : ℚ) / m := div_nonneg h0 (by linarith)
    have hq2 : roundMag (n : ℚ) / m ≤ 2 ^ 64 := by
      have : roundMag (n : ℚ) / m ≤ roundMag (n : ℚ) := div_le_self h0 hm
      linarith
    obtain ⟨e2, _⟩ := ofMag_le_bound false _ (2 ^ 64) hq hq2 roundMag_two64 le_rfl
    refine ⟨roundMag (roundMag (n : ℚ) / m), ?_, roundMag_nonneg _ hq⟩
    simp [Double.div, hm0, e2]

theorem roundMag_micro_pos : 0 < roundMag (1 / 1000000) := by decide!

/-- The quotient `time_diff` is a finite non-negative double, positive
exactly when the count of microseconds is. -/
theorem time_diff_fin (n : Nat) (hn : (n : ℚ) ≤ 2 ^ 64) :
    ∃ y : ℚ, Double.div (ofInt (n : Int)) (ofInt 1000000) = fin false y ∧ 0 ≤ y ∧
      (0 < y ↔ 0 < n) := by
  obtain ⟨e, hb⟩ := ofInt_nat n hn
  have h0 : 0 ≤ roundMag (n : ℚ) := roundMag_nonneg _ (by positivity)
  have hq : 0 ≤ roundMag (n : ℚ) / 1000000 := by positivity
  have hq2 : roundMag (n : ℚ) / 1000000 ≤ 2 ^ 64 := by
    have : roundMag (n : ℚ) / 1000000 ≤ roundMag (n : ℚ) := div_le_self h0 (by norm_num)
    linarith
  obtain ⟨e2, _⟩ := ofMag_le_bound false _ (2 ^ 64) hq hq2 roundMag_two64 le_rfl
  refine ⟨roundMag (roundMag (n : ℚ) / 1000000), ?_, roundMag_nonneg _ hq, ?_⟩
  · rw [e, ofInt_million]
    simp [Double.div, e2]
  · constructor
    · intro h
      rcases Nat.eq_zero_or_pos n with h0 | hpos
      · subst h0
        simp [roundMag_zero] at h
      · exact hpos
    · intro h
      have h1 : (1 : ℚ) ≤ (n : ℚ) := by exact_mod_cast h
      have h2 : (1 : ℚ) ≤ roundMag (n : ℚ) := by
        have := roundMag_mono (by norm_num) h1
        rwa [roundMag_one] at this
      have h3 : (1 : ℚ) / 1000000 ≤ roundMag (n : ℚ) / 1000000 := by
        apply div_le_div_of_nonneg_right h2 (by norm_num)
      have := roundMag_mono (by norm_num) h3
      linarith [roundMag_micro_pos]

theorem gt_zero_fin (y : ℚ) : gt (fin false y) (ofInt 0) = decide (0 < y) := by
  rw [ofInt_zero]
  simp [Double.gt, Double.lt, sval_false]

/-- The quotient `idle_diff / time_diff` for a positive `time_diff`. -/
theorem ratio_cases (x y : ℚ) (hx : 0 ≤ x) (hy : 0 < y) :
    Double.div (fin false x) (fin false y) = inf false ∨
      ∃ z : ℚ, Double.div (fin false x) (fin false y) = fin false z ∧ 0 ≤ z ∧
        z = roundMag (x / y) := by
  have e : Double.div (fin false x) (fin false y) = ofMag false (x / y) := by
    simp [Double.div, hy.ne']
  rw [e]
  rcases ofMag_cases false (x / y) with ⟨h, _⟩ | ⟨h, _⟩
  · exact Or.inl h
  · exact Or.inr ⟨_, h, roundMag_nonneg _ (div_nonneg hx hy.le), rfl⟩

/-- The difference `1 - z` for a non-negative finite `z` is at most 1 and is
not a NaN. -/
theorem one_sub_fin (z : ℚ) (hz : 0 ≤ z) :
    le (Double.sub (fin false 1) (fin false z)) (fin false 1) = true ∧
      Double.sub (fin false 1) (fin false z) ≠ nan := by
  by_cases hv : (1 : ℚ) - z = 0
  · simp [Double.sub, sval_false, hv, Double.le]
  · have e : Double.sub (fin false 1) (fin false z) =
        ofMag (decide ((1 : ℚ) - z < 0)) |1 - z| := by
      simp [Double.sub, sval_false, hv]
    rw [e]
    refine ⟨?_, ofMag_ne_nan _ _⟩
    by_cases hneg : (1 : ℚ) - z < 0
    · have hd : decide ((1 : ℚ) - z < 0) = true := by simpa using hneg
      rw [hd]
      rcases ofMag_cases true |1 - z| with ⟨h, _⟩ | ⟨h, _⟩
      · rw [h]; rfl
      · rw [h]
        have := roundMag_nonneg |1 - z| (abs_nonneg _)
        simp only [Double.le, sval_true, sval_false, decide_eq_true_eq]
        linarith
    · have hd : decide ((1 : ℚ) - z < 0) = false := by simpa using hneg
      rw [hd]
      have hpos : 0 ≤ (1 : ℚ) - z := not_lt.mp hneg
      rw [abs_of_nonneg hpos]
      obtain ⟨e2, hb⟩ := ofMag_le_bound false (1 - z) 1 hpos (by linarith) roundMag_one
        (by norm_num)
      rw [e2]
      simpa [Double.le, sval_false] using hb

/-- The difference `1 - z` for a finite `z` between 0 and 1 is not negative. -/
theorem one_sub_nonneg (z : ℚ) (hz1 : z ≤ 1) :
    le (fin false 0) (Double.sub (fin false 1) (fin false z)) = true := by
  by_cases hv : (1 : ℚ) - z = 0
  · simp [Double.sub, sval_false, hv, Double.le]
  · have hpos : 0 ≤ (1 : ℚ) - z := by linarith
    have hneg : ¬ ((1 : ℚ) - z < 0) := not_lt.mpr hpos
    have e : Double.sub (fin false 1) (fin false z) = ofMag false |1 - z| := by
      have hd : decide ((1 : ℚ) - z < 0) = false := by simpa using hneg
      simp only [Double.sub, sval_false, hv, if_false, hd]
    rw [e, abs_of_nonneg hpos]
    rcases ofMag_cases false (1 - z) with ⟨h, _⟩ | ⟨h, _⟩
    · rw [h]; rfl
    · rw [h]
      simpa [Double.le, sval_false] using roundMag_nonneg _ hpos

/-- Every call stores its reading. -/
theorem get_cpu_usage_state (tps : Int) (s : SamplerState) (r : StatReading) :
    (get_cpu_usage tps s r).2 = ⟨r.idle_jiffies, r.tv⟩ := by
  unfold get_cpu_usage
  by_cases h : s.last_idle = 0
  · rw [if_pos h]
  · rw [if_neg h]
    simp only []
    split_ifs <;> rfl

/-- A call with the stored idle counter 0 returns 0. -/
theorem get_cpu_usage_first (tps : Int) (s : SamplerState) (r : StatReading)
    (h : s.last_idle = 0) : (get_cpu_usage tps s r).1 = fin false 0 := by
  unfold get_cpu_usage
  rw [if_pos h, ofInt_zero]

/-- A call with a stored idle counter other than 0. -/
theorem get_cpu_usage_later (tps : Int) (s : SamplerState) (r : StatReading)
    (h : s.last_idle ≠ 0) :
    (get_cpu_usage tps s r).1 =
      if 0 < subtract_timevals r.tv s.last_tv then
        usage_between tps ⟨s.last_idle, s.last_tv⟩ r
      else ofInt 0 := by
  obtain ⟨y, ey, hy0, hy⟩ := time_diff_fin (subtract_timevals r.tv s.last_tv) (toULong_le _)
  unfold get_cpu_usage usage_between
  rw [if_neg h]
  simp only [ey, gt_zero_fin]
  by_cases hp : 0 < subtract_timevals r.tv s.last_tv
  · rw [if_pos hp, if_pos (by simpa using hy.mpr hp)]
  · rw [if_neg hp, if_neg (by simpa using fun h => hp (hy.mp h))]

/-- Every value the sampler returns is at most 1, for a positive tick rate. -/
theorem get_cpu_usage_le_one (tps : Int) (htps : 0 < tps) (s : SamplerState) (r : StatReading) :
    le (get_cpu_usage tps s r).1 (ofInt 1) = true := by
  by_cases h : s.last_idle = 0
  · rw [get_cpu_usage_first tps s r h, ofInt_one]
    simp [Double.le, sval_false]
  · obtain ⟨x, ex, hx⟩ := idle_diff_fin tps htps
      (toULong ((r.idle_jiffies : Int) - s.last_idle)) (toULong_le _)
    obtain ⟨y, ey, hy0, hy⟩ := time_diff_fin (subtract_timevals r.tv s.last_tv) (toULong_le _)
    unfold get_cpu_usage
    rw [if_neg h]
    simp only [ex, ey, gt_zero_fin, ofInt_one]
    by_cases hp : 0 < y
    · rw [if_pos (by simpa using hp)]
      rcases ratio_cases x y hx hp with e | ⟨z, e, hz, _⟩
      · rw [e]; rfl
      · rw [e]; exact (one_sub_fin z hz).1
    · rw [if_neg (by simpa using hp), ofInt_zero]
      simp [Double.le, sval_false]

theorem div_fin_ne_nan (x : Double) (t : Bool) (y : ℚ) (hx : x ≠ nan) (hy : y ≠ 0) :
    Double.div x (fin t y) ≠ nan := by
  cases x with
  | nan => exact absurd rfl hx
  | inf s => simp [Double.div]
  | fin s a => simpa [Double.div, hy] using ofMag_ne_nan _ _

theorem sub_fin_ne_nan (s : Bool) (a : ℚ) (y : Double) (hy : y ≠ nan) :
    Double.sub (fin s a) y ≠ nan := by
  cases y with
  | nan => exact absurd rfl hy
  | inf t => simp [Double.sub]
  | fin t b =>
    by_cases hv : sval s a - sval t b = 0
    · simp [Double.sub, hv]
    · simpa [Double.sub, hv] using ofMag_ne_nan _ _

/-- The conversion of a `long` other than 0 to `double` is not a zero. -/
theorem ofInt_ne_zero (n : Int) (h : n ≠ 0) :
    ofInt n = inf (decide (n < 0)) ∨ ∃ m : ℚ, ofInt n = fin (decide (n < 0)) m ∧ m ≠ 0 := by
  unfold ofInt
  rcases ofMag_cases (decide (n < 0)) ((|n| : Int) : ℚ) with ⟨h1, _⟩ | ⟨h1, _⟩
  · exact Or.inl h1
  · refine Or.inr ⟨_, h1, ?_⟩
    have hn : (1 : ℚ) ≤ ((|n| : Int) : ℚ) := by
      have : 1 ≤ |n| := Int.one_le_abs h
      exact_mod_cast this
    have := roundMag_mono (by norm_num) hn
    rw [roundMag_one] at this
    linarith

/-- The sampler never returns a NaN when the tick rate is not 0. -/
theorem get_cpu_usage_ne_nan (tps : Int) (htps : tps ≠ 0) (s : SamplerState) (r : StatReading) :
    (get_cpu_usage tps s r).1 ≠ nan := by
  by_cases h : s.last_idle = 0
  · rw [get_cpu_usage_first tps s r h]
    simp
  · obtain ⟨e, _⟩ := ofInt_nat (toULong ((r.idle_jiffies : Int) - s.last_idle)) (toULong_le _)
    obtain ⟨y, ey, hy0, hy⟩ := time_diff_fin (subtract_timevals r.tv s.last_tv) (toULong_le _)
    have hidle : Double.div (ofInt (toULong ((r.idle_jiffies : Int) - s.last_idle)))
        (ofInt tps) ≠ nan := by
      rw [e]
      rcases ofInt_ne_zero tps htps with h1 | ⟨m, h1, hm⟩
      · rw [h1]; simp [Double.div]
      · rw [h1]; exact div_fin_ne_nan _ _ m (by simp) hm
    unfold get_cpu_usage
    rw [if_neg h]
    simp only [ey, gt_zero_fin, ofInt_one]
    by_cases hp : 0 < y
    · rw [if_pos (by simpa using hp)]
      exact sub_fin_ne_nan _ _ _ (div_fin_ne_nan _ _ y hidle hp.ne')
    · rw [if_neg (by simpa using hp), ofInt_zero]
      simp

theorem roundMag_nat (n : Nat) (h : n < 2 ^ 53) : roundMag (n : ℚ) = (n : ℚ) := by
  have := roundMag_fix n 0 h (by norm_num)
  have e : pow2 0 = 1 := by rw [pow2_eq]; norm_num
  rwa [e, mul_one] at this

theorem toULong_nat (n : Nat) (h : n < 2 ^ 64) : toULong (n : Int) = n := by
  unfold toULong
  have : (n : Int) % 2 ^ 64 = n := Int.emod_eq_of_lt (by omega) (by omega)
  rw [this]
  simp

/-- The sampler's value is not negative when the idle time accrued since the
stored sample does not exceed the elapsed time. -/
theorem get_cpu_usage_nonneg (tps : Int) (htps : 0 < tps) (s : SamplerState) (r : StatReading)
    (d e : Nat) (htps2 : tps < 2 ^ 53) (hd : (r.idle_jiffies : Int) - s.last_idle = d)
    (he : (r.tv.tv_usec - s.last_tv.tv_usec) + (r.tv.tv_sec - s.last_tv.tv_sec) * 1000000 = e)
    (hd2 : d < 2 ^ 53) (he2 : e < 2 ^ 53) (hle : (d : Int) * 1000000 ≤ e * tps) :
    le (ofInt 0) (get_cpu_usage tps s r).1 = true := by
  rw [ofInt_zero]
  by_cases h : s.last_idle = 0
  · rw [get_cpu_usage_first tps s r h]
    simp [Double.le, sval_false]
  · obtain ⟨k, hk⟩ := Int.eq_ofNat_of_zero_le htps.le
    have hk53 : k < 2 ^ 53 := by omega
    have hkpos : (0 : ℚ) < (k : ℚ) := by
      have : 0 < k := by omega
      exact_mod_cast this
    -- the conversions are exact
    have e1 : ofInt (d : Int) = fin false (d : ℚ) := by
      have := (ofInt_nat d (by
        have : (d : ℚ) < 2 ^ 53 := by exact_mod_cast hd2
        linarith [show (2 : ℚ) ^ 53 ≤ 2 ^ 64 by norm_num])).1
      rwa [roundMag_nat d hd2] at this
    have e2 : ofInt (e : Int) = fin false (e : ℚ) := by
      have := (ofInt_nat e (by
        have : (e : ℚ) < 2 ^ 53 := by exact_mod_cast he2
        linarith [show (2 : ℚ) ^ 53 ≤ 2 ^ 64 by norm_num])).1
      rwa [roundMag_nat e he2] at this
    have e3 : ofInt tps = fin false (k : ℚ) := by
      rw [hk]
      have := (ofInt_nat k (by
        have : (k : ℚ) < 2 ^ 53 := by exact_mod_cast hk53
        linarith [show (2 : ℚ) ^ 53 ≤ 2 ^ 64 by norm_num])).1
      rwa [roundMag_nat k hk53] at this
    have hq1 : (0 : ℚ) ≤ (d : ℚ) / k := by positivity
    have hq2 : (0 : ℚ) ≤ (e : ℚ) / 1000000 := by positivity
    have hcmp : (d : ℚ) / k ≤ (e : ℚ) / 1000000 := by
      rw [div_le_div_iff₀ hkpos (by norm_num)]
      have : ((d : Int) : ℚ) * 1000000 ≤ ((e : Int) : ℚ) * ((k : Int) : ℚ) := by
        rw [hk] at hle
        exact_mod_cast hle
      simpa using this
    have hxy := roundMag_mono hq1 hcmp
    obtain ⟨i1, _⟩ := ofMag_le_bound false ((d : ℚ) / k) (d : ℚ) hq1
      (div_le_self (by positivity) (by
        have : 1 ≤ k := by omega
        exact_mod_cast this)) (roundMag_nat d hd2) (by
        have : (d : ℚ) < 2 ^ 53 := by exact_mod_cast hd2
        linarith [show (2 : ℚ) ^ 53 ≤ 2 ^ 64 by norm_num])
    obtain ⟨i2, _⟩ := ofMag_le_bound false ((e : ℚ) / 1000000) (e : ℚ) hq2
      (div_le_self (by positivity) (by norm_num)) (roundMag_nat e he2) (by
        have : (e : ℚ) < 2 ^ 53 := by exact_mod_cast he2
        linarith [show (2 : ℚ) ^ 53 ≤ 2 ^ 64 by norm_num])
    have hidle : Double.div (ofInt (toULong ((r.idle_jiffies : Int) - s.last_idle))) (ofInt tps) =
        fin false (roundMag ((d : ℚ) / k)) := by
      rw [hd, toULong_nat d (by omega), e1, e3]
      simp [Double.div, hkpos.ne', i1]
    have htime : Double.div (ofInt (subtract_timevals r.tv s.last_tv)) (ofInt 1000000) =
        fin false (roundMag ((e : ℚ) / 1000000)) := by
      unfold subtract_timevals
      rw [he, toULong_nat e (by omega), e2, ofInt_million]
      simp [Double.div, i2]
    unfold get_cpu_usage
    rw [if_neg h]
    simp only [hidle, htime, gt_zero_fin, ofInt_one]
    by_cases hp : 0 < roundMag ((e : ℚ) / 1000000)
    · rw [if_pos (by simpa using hp)]
      have hx0 := roundMag_nonneg _ hq1
      have hr1 : roundMag ((d : ℚ) / k) / roundMag ((e : ℚ) / 1000000) ≤ 1 := by
        rw [div_le_one hp]; exact hxy
      have hr0 : 0 ≤ roundMag ((d : ℚ) / k) / roundMag ((e : ℚ) / 1000000) :=
        div_nonneg hx0 hp.le
      obtain ⟨i3, hz⟩ := ofMag_le_bound false _ 1 hr0 hr1 roundMag_one (by norm_num)
      have : Double.div (fin false (roundMag ((d : ℚ) / k)))
          (fin false (roundMag ((e : ℚ) / 1000000))) =
          fin false (roundMag (roundMag ((d : ℚ) / k) / roundMag ((e : ℚ) / 1000000))) := by
        simp [Double.div, hp.ne', i3]
      rw [this]
      exact one_sub_nonneg _ hz
    · rw [if_neg (by simpa using hp), ofInt_zero]
      simp [Double.le, sval_false]

/-- Call `j` from the stored reading `p` is the pair of readings `j`, `j + 1`
of the list that starts with `p`. -/
theorem sample_all_get (tps : Int) :
    ∀ (rs : List StatReading) (p : StatReading) (j : Nat),
      (sample_all tps ⟨p.idle_jiffies, p.tv⟩ rs)[j]? =
        match (p :: rs)[j]?, (p :: rs)[j + 1]? with
        | some a, some c => some (usage_pair tps a c)
        | _, _ => none := by
  intro rs
  induction rs with
  | nil =>
    intro p j
    cases j <;> simp [sample_all]
  | cons c rs ih =>
    intro p j
    cases j with
    | zero =>
      simp only [sample_all, List.getElem?_cons_zero, List.getElem?_cons_succ, zero_add]
      congr 1
      unfold usage_pair
      by_cases h : p.idle_jiffies = 0
      · rw [if_pos h, get_cpu_usage_first tps _ c h, ofInt_zero]
      · rw [if_neg h, get_cpu_usage_later tps _ c h]
    | succ j =>
      simp only [sample_all, List.getElem?_cons_succ, get_cpu_usage_state]
      have := ih c j
      simpa using this

/-! ## The controller step -/

theorem roundMag_cmin :
    roundMag (5764607523034235 / 576460752303423488) = 5764607523034235 / 576460752303423488 := by
  decide!

/-- The controller step for the reading 1.0, on a target of the format in the
range: the product with the setpoint, rounded, and raised to `CPU_MIN` when
below it. -/
theorem controller_step_one (a : ℚ) (h1 : (5764607523034235 / 576460752303423488 : ℚ) ≤ a)
    (h2 : a ≤ 1) (hv : roundMag a = a) :
    controller_step (fin false a) (lit 1) =
      fin false (max (5764607523034235 / 576460752303423488)
        (roundMag (a * (5404319552844595 / 18014398509481984)))) ∧
      roundMag (a * (5404319552844595 / 18014398509481984)) ≤ a := by
  have ha0 : 0 ≤ a := by linarith
  have hlit : lit 1 = fin false 1 := CPU_MAX_eq
  obtain ⟨e1, _⟩ := ofMag_le_bound false a 1 ha0 h2 roundMag_one (by norm_num)
  have hq0 : 0 ≤ a * (5404319552844595 / 18014398509481984) := by positivity
  have hqa : a * (5404319552844595 / 18014398509481984) ≤ a := by
    have : a * (5404319552844595 / 18014398509481984) ≤ a * 1 :=
      mul_le_mul_of_nonneg_left (by norm_num) ha0
    linarith
  have hpa : roundMag (a * (5404319552844595 / 18014398509481984)) ≤ a := by
    have := roundMag_mono hq0 hqa
    rwa [hv] at this
  obtain ⟨e2, hp1⟩ := ofMag_le_bound false _ 1 hq0 (by linarith) roundMag_one (by norm_num)
  refine ⟨?_, hpa⟩
  have hdiv : Double.div (fin false a) (fin false 1) = fin false a := by
    simp [Double.div, e1, hv]
  have hmul : Double.mul (fin false a) (fin false (5404319552844595 / 18014398509481984)) =
      fin false (roundMag (a * (5404319552844595 / 18014398509481984))) := by
    simp only [Double.mul, Bool.xor_false, e2]
  rw [controller_step_eq]
  unfold preclamp
  rw [hlit, hdiv, CPU_T1MICRO_eq, hmul, CPU_MAX_eq, CPU_MIN_eq]
  have hgt : gt (fin false (roundMag (a * (5404319552844595 / 18014398509481984))))
      (fin false 1) = false := by
    simp only [Double.gt, Double.lt, sval_false, decide_eq_false_iff_not, not_lt]
    exact hp1
  simp only [hgt, Bool.false_eq_true, if_false, Double.lt, sval_false, decide_eq_true_eq]
  by_cases hc : roundMag (a * (5404319552844595 / 18014398509481984)) <
      5764607523034235 / 576460752303423488
  · rw [if_pos hc, max_eq_left hc.le]
  · rw [if_neg hc, max_eq_right (not_lt.mp hc)]

theorem target_from_max_four : target_after (fun _ => lit 1) CPU_MAX 4 = CPU_MIN := by decide!

theorem controller_step_min_one : controller_step CPU_MIN (lit 1) = CPU_MIN := by decide!

/-- The targets under the constant reading 1.0, against those from
`CPU_MAX`. -/
theorem target_one_invariant (u : Nat → Double) (hu : ∀ n, u n = lit 1) (t : Double)
    (hv : isBinary64 t = true) (ht : inRange t = true) (n : Nat) :
    ∃ a b : ℚ, target_after u t n = fin false a ∧
      target_after (fun _ => lit 1) CPU_MAX n = fin false b ∧
      (5764607523034235 / 576460752303423488 : ℚ) ≤ a ∧ a ≤ b ∧ b ≤ 1 ∧
      roundMag a = a ∧ roundMag b = b := by
  induction n with
  | zero =>
    obtain ⟨a, rfl, h1, h2, h3⟩ := inRange_valid t hv ht
    exact ⟨a, 1, rfl, CPU_MAX_eq, h1, h2, le_rfl, h3, roundMag_one⟩
  | succ n ih =>
    obtain ⟨a, b, ea, eb, h1, hab, hb1, hva, hvb⟩ := ih
    obtain ⟨sa, pa⟩ := controller_step_one a h1 (by linarith) hva
    obtain ⟨sb, pb⟩ := controller_step_one b (by linarith) hb1 hvb
    have hmono : roundMag (a * (5404319552844595 / 18014398509481984)) ≤
        roundMag (b * (5404319552844595 / 18014398509481984)) :=
      roundMag_mono (by nlinarith) (mul_le_mul_of_nonneg_right hab (by norm_num))
    have hvalid : ∀ x : ℚ, 0 ≤ x →
        roundMag (max (5764607523034235 / 576460752303423488) (roundMag x)) =
          max (5764607523034235 / 576460752303423488) (roundMag x) := by
      intro x hx
      rcases max_cases (5764607523034235 / 576460752303423488 : ℚ) (roundMag x) with
        ⟨h, _⟩ | ⟨h, _⟩
      · rw [h]; exact roundMag_cmin
      · rw [h]; exact roundMag_idem x hx
    refine ⟨_, _, ?_, ?_, le_max_left _ _, max_le_max le_rfl hmono, ?_,
      hvalid _ (by nlinarith), hvalid _ (by nlinarith)⟩
    · simp only [target_after, ea, hu n]; exact sa
    · simp only [target_after, eb]; exact sb
    · exact max_le (by norm_num) (by linarith)

theorem controller_step_seed_zero : controller_step CPU_T1MICRO (fin false 0) = CPU_MAX := by
  decide!

theorem controller_step_max_setpoint : controller_step CPU_MAX CPU_T1MICRO = CPU_MAX := by
  decide!

/-- A double of the format above zero is a positive finite value or the
positive infinity. -/
theorem pos_valid (u : Double) (hv : isBinary64 u = true) (h : Double.lt (ofInt 0) u = true) :
    u = inf false ∨ ∃ b : ℚ, u = fin false b ∧ 0 < b := by
  rw [ofInt_zero] at h
  cases u with
  | nan => simp [Double.lt] at h
  | inf s => cases s <;> simp [Double.lt] at h ⊢
  | fin s b =>
    simp only [isBinary64, decide_eq_true_eq] at hv
    cases s with
    | false =>
      simp only [Double.lt, sval_false, decide_eq_true_eq] at h
      exact Or.inr ⟨b, rfl, h⟩
    | true =>
      simp only [Double.lt, sval_false, sval_true, decide_eq_true_eq] at h
      linarith [hv.1]

theorem le_inf_of_ne_nan (x : Double) (hx : x ≠ nan) : le x (inf false) = true := by
  cases x with
  | nan => exact absurd rfl hx
  | inf s => cases s <;> rfl
  | fin s a => rfl

/-- The pre-clamp value does not increase with the reading. -/
theorem preclamp_antitone (a b1 b2 : ℚ) (ha : 0 ≤ a) (hb1 : 0 < b1) (hb : b1 ≤ b2) :
    le (preclamp (fin false a) (fin false b2)) (preclamp (fin false a) (fin false b1)) = true := by
  have hb2 : 0 < b2 := lt_of_lt_of_le hb1 hb
  have hq2 : 0 ≤ a / b2 := div_nonneg ha hb2.le
  have hq : a / b2 ≤ a / b1 := div_le_div_of_nonneg_left ha hb1 hb
  have hm := roundMag_mono hq2 hq
  have e1 : Double.div (fin false a) (fin false b1) = ofMag false (a / b1) := by
    simp [Double.div, hb1.ne']
  have e2 : Double.div (fin false a) (fin false b2) = ofMag false (a / b2) := by
    simp [Double.div, hb2.ne']
  unfold preclamp
  rw [e1, e2, CPU_T1MICRO_eq]
  rcases ofMag_cases false (a / b1) with ⟨h1, _⟩ | ⟨h1, k1⟩
  · rw [h1]
    have : Double.mul (inf false) (fin false (5404319552844595 / 18014398509481984)) =
        inf false := by simp [Double.mul]
    rw [this]
    exact le_inf_of_ne_nan _ (mul_pos_const_ne_nan _ _ (ofMag_ne_nan _ _) (by norm_num))
  · rcases ofMag_cases false (a / b2) with ⟨_, k2⟩ | ⟨h2, _⟩
    · linarith
    · rw [h1, h2]
      simp only [Double.mul, Bool.xor_false]
      apply ofMag_le_ofMag
      · exact mul_nonneg (roundMag_nonneg _ hq2) (by norm_num)
      · exact mul_le_mul_of_nonneg_right hm (by norm_num)

/-! ## The process enumerator -/

theorem atoi_eq_decimal (d : String) (h : decimal d < 2 ^ 31) : atoi d = (decimal d : Int) := by
  unfold atoi
  have h1 : min (decimal d) (2 ^ 63 - 1) = decimal d := by
    apply Nat.min_eq_left
    have : (2 : Nat) ^ 31 ≤ 2 ^ 63 - 1 := by norm_num
    omega
  rw [h1]
  have h2 : ((decimal d : Int) + 2 ^ 31) % 2 ^ 32 = (decimal d : Int) + 2 ^ 31 :=
    Int.emod_eq_of_lt (by omega) (by
      have : ((decimal d : Nat) : Int) < 2 ^ 31 := by exact_mod_cast h
      omega)
  omega

/-- The loop of `update_pidlist` when every lookup succeeds and every name
of digits is a process id: the set so far, then the qualifying entries, cut
at the capacity. -/
theorem pidlist_loop_spec (pt : ProcTable) :
    ∀ (l : List String) (st_uid : Nat) (pids : List Int),
      pids.length < PIDLIST_SIZE →
      (∀ d ∈ l, strtok_null d = true → (pt.owner (atoi d)).isSome = true) →
      (∀ d ∈ l, strtok_null d = true → decimal d < 2 ^ 31) →
      pidlist_loop pt.owner l st_uid pids =
        (pids ++ (l.filter (qualifies pt)).map (fun d => (decimal d : Int))).take
          PIDLIST_SIZE := by
  intro l
  induction l with
  | nil =>
    intro st_uid pids hlen _ _
    simp only [pidlist_loop, List.filter_nil, List.map_nil, List.append_nil]
    rw [List.take_of_length_le hlen.le]
  | cons d rest ih =>
    intro st_uid pids hlen hlook hrep
    have hlook' : ∀ d' ∈ rest, strtok_null d' = true → (pt.owner (atoi d')).isSome = true :=
      fun d' hd' => hlook d' (List.mem_cons_of_mem _ hd')
    have hrep' : ∀ d' ∈ rest, strtok_null d' = true → decimal d' < 2 ^ 31 :=
      fun d' hd' => hrep d' (List.mem_cons_of_mem _ hd')
    cases hs : strtok_null d with
    | false =>
      have hq : qualifies pt d = false := by simp [qualifies, hs]
      simp only [pidlist_loop, hs, Bool.not_false, if_true, List.filter_cons, hq,
        Bool.false_eq_true, if_false]
      exact ih st_uid pids hlen hlook' hrep'
    | true =>
      have hat := atoi_eq_decimal d (hrep d (List.mem_cons_self _ _) hs)
      have hsome := hlook d (List.mem_cons_self _ _) hs
      rw [hat] at hsome
      obtain ⟨uid, huid⟩ := Option.isSome_iff_exists.mp hsome
      simp only [pidlist_loop, hs, Bool.not_true, Bool.false_eq_true, if_false, hat, huid]
      by_cases hu : uid > 0
      · have hq : qualifies pt d = true := by simp [qualifies, hs, huid, hu]
        simp only [hu, if_true, List.filter_cons, hq, List.map_cons]
        by_cases hfull : (pids ++ [(decimal d : Int)]).length ≥ PIDLIST_SIZE
        · rw [if_pos hfull]
          have hl : (pids ++ [(decimal d : Int)]).length = PIDLIST_SIZE := by
            simp only [List.length_append, List.length_singleton] at hfull ⊢
            omega
          have e : pids ++ (decimal d : Int) :: List.map (fun d => (decimal d : Int))
              (List.filter (qualifies pt) rest) =
              (pids ++ [(decimal d : Int)]) ++ List.map (fun d => (decimal d : Int))
                (List.filter (qualifies pt) rest) := by simp
          rw [e, List.take_append_of_le_length hl.ge, List.take_of_length_le hl.le]
        · rw [if_neg hfull]
          rw [ih uid (pids ++ [(decimal d : Int)]) (by omega) hlook' hrep']
          simp
      · have hq : qualifies pt d = false := by simp [qualifies, hs, huid, hu]
        have hn : ¬ pids.length ≥ PIDLIST_SIZE := by omega
        simp only [hu, if_false, List.filter_cons, hq, Bool.false_eq_true, hn]
        exact ih uid pids hlen hlook' hrep'

/-! ## The main loop -/

/-- The first `for` loop: from index `i`, one step per remaining identifier,
whatever signals are delivered. -/
theorem exec_stopping (tps : Int) (tgt : Double) (smp : SamplerState) (P : List Int)
    (tr ts : Int) :
    ∀ (xs : List StepInput) (i : Nat) (run : Bool) (trace : List Event),
      i + xs.length = P.length →
      exec tps ⟨PC.stopping i, run, tgt, smp, P, tr, ts, trace⟩ xs =
        ⟨PC.stopping P.length, run && !(xs.any (fun x => x.signal)), tgt, smp, P, tr, ts,
          trace ++ (P.drop i).map (fun p => Event.kill p Sig.SIGSTOP)⟩ := by
  intro xs
  induction xs with
  | nil =>
    intro i run trace h
    simp only [List.length_nil, Nat.add_zero] at h
    subst h
    simp [exec]
  | cons x xs ih =>
    intro i run trace h
    simp only [List.length_cons] at h
    have hi : i < P.length := by omega
    have hg : P[i]? = some P[i] := List.getElem?_eq_getElem hi
    have hstep : step_async tps ⟨PC.stopping i, run, tgt, smp, P, tr, ts, trace⟩ x =
        ⟨PC.stopping (i + 1), run && !x.signal, tgt, smp, P, tr, ts,
          trace ++ [Event.kill P[i] Sig.SIGSTOP]⟩ := by
      cases hsig : x.signal <;> simp [step_async, step, signal_handler, hsig, hg]
    have hd : P.drop i = P[i] :: P.drop (i + 1) := List.drop_eq_getElem_cons hi
    simp only [exec, List.foldl_cons] at ih ⊢
    rw [hstep, ih (i + 1) _ _ (by omega), hd]
    simp only [List.map_cons, List.append_assoc, List.singleton_append, List.any_cons,
      Bool.not_or, Bool.and_assoc]

/-- The second `for` loop: from index `i`, one step per remaining
identifier, whatever signals are delivered. -/
theorem exec_resuming (tps : Int) (tgt : Double) (smp : SamplerState) (P : List Int)
    (tr ts : Int) :
    ∀ (xs : List StepInput) (i : Nat) (run : Bool) (trace : List Event),
      i + xs.length = P.length →
      exec tps ⟨PC.resuming i, run, tgt, smp, P, tr, ts, trace⟩ xs =
        ⟨PC.resuming P.length, run && !(xs.any (fun x => x.signal)), tgt, smp, P, tr, ts,
          trace ++ (P.drop i).map (fun p => Event.kill p Sig.SIGCONT)⟩ := by
  intro xs
  induction xs with
  | nil =>
    intro i run trace h
    simp only [List.length_nil, Nat.add_zero] at h
    subst h
    simp [exec]
  | cons x xs ih =>
    intro i run trace h
    simp only [List.length_cons] at h
    have hi : i < P.length := by omega
    have hg : P[i]? = some P[i] := List.getElem?_eq_getElem hi
    have hstep : step_async tps ⟨PC.resuming i, run, tgt, smp, P, tr, ts, trace⟩ x =
        ⟨PC.resuming (i + 1), run && !x.signal, tgt, smp, P, tr, ts,
          trace ++ [Event.kill P[i] Sig.SIGCONT]⟩ := by
      cases hsig : x.signal <;> simp [step_async, step, signal_handler, hsig, hg]
    have hd : P.drop i = P[i] :: P.drop (i + 1) := List.drop_eq_getElem_cons hi
    simp only [exec, List.foldl_cons] at ih ⊢
    rw [hstep, ih (i + 1) _ _ (by omega), hd]
    simp only [List.map_cons, List.append_assoc, List.singleton_append, List.any_cons,
      Bool.not_or, Bool.and_assoc]

/-- The step after the last pass of the first `for` loop: the first
`nanosleep`. -/
theorem step_suspend (tps : Int) (run : Bool) (tgt : Double) (smp : SamplerState)
    (P : List Int) (tr ts : Int) (trace : List Event) (a : StepInput) :
    step_async tps ⟨PC.stopping P.length, run, tgt, smp, P, tr, ts, trace⟩ a =
      ⟨PC.resuming 0, run && !a.signal, tgt, smp, P, tr, ts,
        trace ++ [Event.nanosleep ts]⟩ := by
  have hg : P[P.length]? = none := List.getElem?_eq_none_iff.mpr le_rfl
  cases hsig : a.signal <;> simp [step_async, step, signal_handler, hsig, hg]

/-- The step after the last pass of the second `for` loop: the second
`nanosleep`, and back to the test of `running`. -/
theorem step_run (tps : Int) (run : Bool) (tgt : Double) (smp : SamplerState)
    (P : List Int) (tr ts : Int) (trace : List Event) (b : StepInput) :
    step_async tps ⟨PC.resuming P.length, run, tgt, smp, P, tr, ts, trace⟩ b =
      ⟨PC.top, run && !b.signal, tgt, smp, P, tr, ts,
        trace ++ [Event.nanosleep tr]⟩ := by
  have hg : P[P.length]? = none := List.getElem?_eq_none_iff.mpr le_rfl
  cases hsig : b.signal <;> simp [step_async, step, signal_handler, hsig, hg]

/-- The step that enters a pass of the loop body. -/
theorem step_enter (tps : Int) (m : Machine) (x : StepInput) (r : StatReading) (pt : ProcTable)
    (hpc : m.pc = PC.top) (hrun : m.running = true) (hsig : x.signal = false)
    (hstat : x.iter.stat = some r) (hproc : x.iter.proc = some pt) :
    step_async tps m x =
      ⟨PC.stopping 0, true,
        controller_step m.target_cpu_usage (get_cpu_usage tps m.sampler r).1,
        (get_cpu_usage tps m.sampler r).2, update_pidlist pt x.iter.stack,
        (quantum_split (controller_step m.target_cpu_usage (get_cpu_usage tps m.sampler r).1)).1,
        (quantum_split (controller_step m.target_cpu_usage (get_cpu_usage tps m.sampler r).1)).2,
        m.trace⟩ := by
  simp [step_async, step, hpc, hrun, hsig, hstat, hproc]

/-- One full pass of the loop body, whatever signals are delivered inside
it. -/
theorem exec_pass (tps : Int) (m : Machine) (x : StepInput) (r : StatReading) (pt : ProcTable)
    (s1 s2 : List StepInput) (a b : StepInput)
    (hpc : m.pc = PC.top) (hrun : m.running = true) (hsig : x.signal = false)
    (hstat : x.iter.stat = some r) (hproc : x.iter.proc = some pt)
    (h1 : s1.length = (update_pidlist pt x.iter.stack).length)
    (h2 : s2.length = (update_pidlist pt x.iter.stack).length) :
    exec tps m (x :: (s1 ++ [a] ++ s2 ++ [b])) =
      ⟨PC.top,
        !((s1 ++ [a] ++ s2 ++ [b]).any (fun y => y.signal)),
        controller_step m.target_cpu_usage (get_cpu_usage tps m.sampler r).1,
        (get_cpu_usage tps m.sampler r).2, update_pidlist pt x.iter.stack,
        (quantum_split (controller_step m.target_cpu_usage (get_cpu_usage tps m.sampler r).1)).1,
        (quantum_split (controller_step m.target_cpu_usage (get_cpu_usage tps m.sampler r).1)).2,
        m.trace ++ pass_events (update_pidlist pt x.iter.stack)
          (quantum_split
            (controller_step m.target_cpu_usage (get_cpu_usage tps m.sampler r).1)).2
          (quantum_split
            (controller_step m.target_cpu_usage (get_cpu_usage tps m.sampler r).1)).1⟩ := by
  simp only [exec, List.foldl_cons, List.foldl_append, List.foldl_nil]
  rw [step_enter tps m x r pt hpc hrun hsig hstat hproc]
  have e1 := exec_stopping tps
    (controller_step m.target_cpu_usage (get_cpu_usage tps m.sampler r).1)
    (get_cpu_usage tps m.sampler r).2 (update_pidlist pt x.iter.stack)
    (quantum_split (controller_step m.target_cpu_usage (get_cpu_usage tps m.sampler r).1)).1
    (quantum_split (controller_step m.target_cpu_usage (get_cpu_usage tps m.sampler r).1)).2
    s1 0 true m.trace (by omega)
  simp only [exec] at e1
  rw [e1, step_suspend]
  have e2 := exec_resuming tps
    (controller_step m.target_cpu_usage (get_cpu_usage tps m.sampler r).1)
    (get_cpu_usage tps m.sampler r).2 (update_pidlist pt x.iter.stack)
    (quantum_split (controller_step m.target_cpu_usage (get_cpu_usage tps m.sampler r).1)).1
    (quantum_split (controller_step m.target_cpu_usage (get_cpu_usage tps m.sampler r).1)).2
    s2 0
  simp only [exec] at e2
  rw [e2 _ _ (by omega), step_run]
  simp [pass_events, Bool.and_assoc]

/-- A step keeps the target in the range when the tick rate is not 0. -/
theorem step_async_target (tps : Int) (htps : tps ≠ 0) (m : Machine) (x : StepInput)
    (h : inRange m.target_cpu_usage = true) :
    inRange (step_async tps m x).target_cpu_usage = true := by
  have key : ∀ m' : Machine, m'.target_cpu_usage = m.target_cpu_usage →
      inRange (step tps m' x.iter).target_cpu_usage = true := by
    intro m' hm'
    unfold step
    cases hpc : m'.pc with
    | top =>
      simp only
      cases m'.running with
      | false => simpa [hm'] using h
      | true =>
        cases x.iter.stat with
        | none => simpa [hm'] using h
        | some r =>
          have hr := controller_step_inRange m.target_cpu_usage
            (get_cpu_usage tps m'.sampler r).1 h (get_cpu_usage_ne_nan tps htps _ r)
          cases x.iter.proc with
          | none => simpa [hm'] using hr
          | some pt => simpa [hm'] using hr
    | stopping i =>
      simp only
      cases m'.pidlist[i]? <;> simpa [hm'] using h
    | resuming i =>
      simp only
      cases m'.pidlist[i]? <;> simpa [hm'] using h
    | exited c => simpa [hm'] using h
  unfold step_async
  cases hpc : m.pc with
  | exited c => exact h
  | top => exact key _ (by cases x.signal <;> rfl)
  | stopping i => exact key _ (by cases x.signal <;> rfl)
  | resuming i => exact key _ (by cases x.signal <;> rfl)

theorem exec_target (tps : Int) (htps : tps ≠ 0) (xs : List StepInput) :
    ∀ m : Machine, inRange m.target_cpu_usage = true →
      inRange (exec tps m xs).target_cpu_usage = true := by
  induction xs with
  | nil => intro m h; exact h
  | cons x xs ih =>
    intro m h
    exact ih _ (step_async_target tps htps m x h)

theorem exec_append (tps : Int) (m : Machine) (xs ys : List StepInput) :
    exec tps m (xs ++ ys) = exec tps (exec tps m xs) ys := by
  simp [exec, List.foldl_append]

theorem pow2_neg_52 : pow2 (-52) = 1 / 2 ^ 52 := by
  rw [pow2_eq]; norm_num

theorem pow2_neg_50 : pow2 (-50) = 1 / 2 ^ 50 := by
  rw [pow2_eq]; norm_num

/-- A magnitude in the normal range is at least `2^52` units in its last
place. -/
theorem pow2_ulpExp_le_normal (q : ℚ) (hq : pow2 (-1022) ≤ q) : pow2 (ulpExp q + 52) ≤ q := by
  have hpos : 0 < q := lt_of_lt_of_le (pow2_pos _) hq
  obtain ⟨h1, _⟩ := ilog2_spec q hpos
  unfold ulpExp
  rcases max_cases (ilog2 q) (-1022) with ⟨h, _⟩ | ⟨h, _⟩
  · rw [h, show ilog2 q - 52 + 52 = ilog2 q by ring]; exact h1
  · rw [h]; exact hq

/-- Rounding a magnitude in the normal range lowers it by at most one part
in `2^53`. -/
theorem roundMag_rel_lower (q : ℚ) (hq : pow2 (-1022) ≤ q) :
    q * (1 - 1 / 2 ^ 53) ≤ roundMag q := by
  have hpos : 0 < q := lt_of_lt_of_le (pow2_pos _) hq
  have herr := roundMag_error q hpos
  have hn := pow2_ulpExp_le_normal q hq
  have hu : pow2 (ulpExp q) = pow2 (ulpExp q + 52) * pow2 (-52) := by
    rw [← pow2_add]; congr 1; ring
  rw [pow2_neg_52] at hu
  have h1 : q - roundMag q ≤ pow2 (ulpExp q) / 2 := le_trans (le_abs_self _) herr
  have h2 : pow2 (ulpExp q) ≤ q * (1 / 2 ^ 52) := by
    rw [hu]
    exact mul_le_mul_of_nonneg_right hn (by norm_num)
  have h3 : q * (1 / 2 ^ 52) / 2 = q * (1 / 2 ^ 53) := by ring
  linarith

theorem pow2_neg_1022_le : pow2 (-1022) ≤ 1 / 2 ^ 10 := by
  have h : pow2 (-1022) ≤ pow2 (-10) := by rw [pow2_le_iff]; norm_num
  have e : pow2 (-10) = 1 / 2 ^ 10 := by rw [pow2_eq]; norm_num
  rwa [e] at h

/-- The controller step on a target in the range and a reading within
`2^-50` of the setpoint: the new target is in the range and at most `2^-47`
below the old one. -/
theorem controller_step_near (a b : ℚ)
    (ha1 : (5764607523034235 / 576460752303423488 : ℚ) ≤ a) (ha2 : a ≤ 1)
    (hb1 : (5404319552844595 / 18014398509481984 : ℚ) - 1 / 2 ^ 50 ≤ b)
    (hb2 : b ≤ 5404319552844595 / 18014398509481984 + 1 / 2 ^ 50) :
    ∃ a' : ℚ, controller_step (fin false a) (fin false b) = fin false a' ∧
      a - 1 / 2 ^ 47 ≤ a' ∧ a' ≤ 1 ∧ (5764607523034235 / 576460752303423488 : ℚ) ≤ a' := by
  have hbpos : 0 < b := by
    have : (0 : ℚ) < 5404319552844595 / 18014398509481984 - 1 / 2 ^ 50 := by norm_num
    linarith
  have ha0 : 0 < a := by
    have : (0 : ℚ) < 5764607523034235 / 576460752303423488 := by norm_num
    linarith
  -- the quotient
  obtain ⟨w, hw⟩ : ∃ w : ℚ, w = a / b := ⟨_, rfl⟩
  have hwb : w * b = a := by rw [hw]; field_simp
  have hw0 : 0 ≤ w := by rw [hw]; exact (div_pos ha0 hbpos).le
  have hw4 : w ≤ 4 := by
    rw [hw, div_le_iff₀ hbpos]
    have : (1 : ℚ) ≤ 4 * (5404319552844595 / 18014398509481984 - 1 / 2 ^ 50) := by norm_num
    nlinarith
  have hwlo : 1 / 2 ^ 7 ≤ w := by
    rw [hw, le_div_iff₀ hbpos]
    have h1 : b ≤ 1 := by
      have : (5404319552844595 / 18014398509481984 : ℚ) + 1 / 2 ^ 50 ≤ 1 := by norm_num
      linarith
    have h2 : (1 : ℚ) / 2 ^ 7 ≤ 5764607523034235 / 576460752303423488 := by norm_num
    nlinarith
  have hwn : pow2 (-1022) ≤ w := by
    have := pow2_neg_1022_le
    have : (1 : ℚ) / 2 ^ 10 ≤ 1 / 2 ^ 7 := by norm_num
    linarith
  have r4 : roundMag 4 = 4 := by
    have := roundMag_nat 4 (by norm_num)
    simpa using this
  obtain ⟨e1, hx1⟩ := ofMag_le_bound false w 4 hw0 hw4 r4 (by norm_num)
  have hx1lo := roundMag_rel_lower w hwn
  -- the product
  have hp0 : 0 ≤ roundMag w * (5404319552844595 / 18014398509481984) :=
    mul_nonneg (roundMag_nonneg w hw0) (by norm_num)
  have hp4 : roundMag w * (5404319552844595 / 18014398509481984) ≤ 4 := by
    have : roundMag w * (5404319552844595 / 18014398509481984) ≤ 4 * 1 :=
      mul_le_mul hx1 (by norm_num) (by norm_num) (by norm_num)
    linarith
  have hpn : pow2 (-1022) ≤ roundMag w * (5404319552844595 / 18014398509481984) := by
    have := pow2_neg_1022_le
    nlinarith
  obtain ⟨e2, _⟩ := ofMag_le_bound false _ 4 hp0 hp4 r4 (by norm_num)
  have hx2lo := roundMag_rel_lower _ hpn
  have hx2 : a - 1 / 2 ^ 47 ≤
      roundMag (roundMag w * (5404319552844595 / 18014398509481984)) := by
    have hab : a ≤ w * (5404319552844595 / 18014398509481984 + 1 / 2 ^ 50) := by
      rw [← hwb]; exact mul_le_mul_of_nonneg_left hb2 hw0
    nlinarith
  -- the two clamp comparisons
  have hdiv : Double.div (fin false a) (fin false b) = fin false (roundMag w) := by
    simp [Double.div, hbpos.ne', ← hw, e1]
  have hmul : Double.mul (fin false (roundMag w))
      (fin false (5404319552844595 / 18014398509481984)) =
      fin false (roundMag (roundMag w * (5404319552844595 / 18014398509481984))) := by
    simp only [Double.mul, Bool.xor_false, e2]
  rw [controller_step_eq]
  unfold preclamp
  rw [hdiv, CPU_T1MICRO_eq, hmul, CPU_MAX_eq, CPU_MIN_eq]
  by_cases h1 : (1 : ℚ) < roundMag (roundMag w * (5404319552844595 / 18014398509481984))
  · have hg : gt (fin false (roundMag (roundMag w * (5404319552844595 / 18014398509481984))))
        (fin false 1) = true := by
      simp only [Double.gt, Double.lt, sval_false, decide_eq_true_eq]
      exact h1
    have hl : lt (fin false 1) (fin false (5764607523034235 / 576460752303423488)) = false := by
      simp only [Double.lt, sval_false, decide_eq_false_iff_not]
      norm_num
    simp only [hg, if_true, hl, Bool.false_eq_true, if_false]
    exact ⟨1, rfl, by linarith, le_rfl, by norm_num⟩
  · have hg : gt (fin false (roundMag (roundMag w * (5404319552844595 / 18014398509481984))))
        (fin false 1) = false := by
      simp only [Double.gt, Double.lt, sval_false, decide_eq_false_iff_not]
      exact h1
    simp only [hg, Bool.false_eq_true, if_false]
    by_cases h2 : roundMag (roundMag w * (5404319552844595 / 18014398509481984)) <
        5764607523034235 / 576460752303423488
    · have hl : lt (fin false (roundMag (roundMag w * (5404319552844595 / 18014398509481984))))
          (fin false (5764607523034235 / 576460752303423488)) = true := by
        simp only [Double.lt, sval_false, decide_eq_true_eq]
        exact h2
      simp only [hl, if_true]
      exact ⟨_, rfl, by linarith, by norm_num, le_rfl⟩
    · have hl : lt (fin false (roundMag (roundMag w * (5404319552844595 / 18014398509481984))))
          (fin false (5764607523034235 / 576460752303423488)) = false := by
        simp only [Double.lt, sval_false, decide_eq_false_iff_not]
        exact h2
      simp only [hl, Bool.false_eq_true, if_false]
      exact ⟨_, rfl, hx2, not_lt.mp h1, not_lt.mp h2⟩

/-- Rounding a magnitude in the normal range raises it by at most one part
in `2^53`. -/
theorem roundMag_rel_upper (q : ℚ) (hq : pow2 (-1022) ≤ q) :
    roundMag q ≤ q * (1 + 1 / 2 ^ 53) := by
  have hpos : 0 < q := lt_of_lt_of_le (pow2_pos _) hq
  have herr := roundMag_error q hpos
  have hn := pow2_ulpExp_le_normal q hq
  have hu : pow2 (ulpExp q) = pow2 (ulpExp q + 52) * pow2 (-52) := by
    rw [← pow2_add]; congr 1; ring
  rw [pow2_neg_52] at hu
  have h1 : -(q - roundMag q) ≤ pow2 (ulpExp q) / 2 := le_trans (neg_le_abs _) herr
  have h2 : pow2 (ulpExp q) ≤ q * (1 / 2 ^ 52) := by
    rw [hu]
    exact mul_le_mul_of_nonneg_right hn (by norm_num)
  have h3 : q * (1 / 2 ^ 52) / 2 = q * (1 / 2 ^ 53) := by ring
  linarith

/-- A magnitude of the format between 1/2 and 1 is a multiple of `2^-53`. -/
theorem grid_half_one (z : ℚ) (hv : roundMag z = z) (h1 : 1 / 2 ≤ z) (h2 : z ≤ 1) :
    ∃ k : Nat, z = (k : ℚ) / 2 ^ 53 ∧ k ≤ 2 ^ 53 := by
  obtain ⟨n, e, hn, _, hz⟩ := (roundMag_eq_self_iff z (by linarith)).mp hv
  have hnq : (n : ℚ) < 2 ^ 53 := by exact_mod_cast hn
  have he : -53 ≤ e := by
    by_contra hlt
    have hle : pow2 e ≤ pow2 (-54) := by rw [pow2_le_iff]; omega
    have e54 : pow2 (-54) = 1 / 2 ^ 54 := by rw [pow2_eq]; norm_num
    rw [e54] at hle
    have hpe := pow2_pos e
    have : z < 1 / 2 := by
      rw [hz]
      calc (n : ℚ) * pow2 e ≤ (n : ℚ) * (1 / 2 ^ 54) :=
            mul_le_mul_of_nonneg_left hle (by positivity)
        _ < 2 ^ 53 * (1 / 2 ^ 54) := by
            exact mul_lt_mul_of_pos_right hnq (by norm_num)
        _ = 1 / 2 := by norm_num
    linarith
  obtain ⟨j, hj⟩ := Int.eq_ofNat_of_zero_le (show 0 ≤ e + 53 by omega)
  have hsplit : pow2 e = pow2 (j : Int) * pow2 (-53) := by
    rw [← pow2_add]; congr 1; omega
  have e53 : pow2 (-53) = 1 / 2 ^ 53 := by rw [pow2_eq]; norm_num
  have hzk : z = ((n * 2 ^ j : Nat) : ℚ) / 2 ^ 53 := by
    rw [hz, hsplit, pow2_natCast, e53]
    push_cast
    ring
  refine ⟨n * 2 ^ j, hzk, ?_⟩
  have : ((n * 2 ^ j : Nat) : ℚ) ≤ ((2 ^ 53 : Nat) : ℚ) := by
    have h3 : ((n * 2 ^ j : Nat) : ℚ) / 2 ^ 53 ≤ 1 := by rw [← hzk]; exact h2
    rw [div_le_one (by norm_num)] at h3
    exact_mod_cast h3
  exact_mod_cast this

theorem roundMag_half : roundMag (1 / 2) = 1 / 2 := by decide!

/-- The difference `1 - z` for a magnitude `z` of the format is never the
double 0.30: between 1/2 and 1 the doubles are multiples of `2^-53`, and 0.30
is an odd multiple of `2^-54`. -/
theorem one_sub_ne_setpoint (z : ℚ) (hz0 : 0 ≤ z) (hv : roundMag z = z) :
    Double.sub (fin false 1) (fin false z) ≠ CPU_T1MICRO := by
  rw [CPU_T1MICRO_eq]
  by_cases hzero : (1 : ℚ) - z = 0
  · simp only [Double.sub, sval_false, hzero, if_true]
    intro hc
    injection hc with _ hval
    norm_num at hval
  · have e : Double.sub (fin false 1) (fin false z) =
        ofMag (decide ((1 : ℚ) - z < 0)) |1 - z| := by
      simp [Double.sub, sval_false, hzero]
    rw [e]
    by_cases hneg : (1 : ℚ) - z < 0
    · have hd : decide ((1 : ℚ) - z < 0) = true := by simpa using hneg
      rw [hd]
      rcases ofMag_cases true |1 - z| with ⟨h, _⟩ | ⟨h, _⟩ <;> rw [h] <;> simp
    · have hd : decide ((1 : ℚ) - z < 0) = false := by simpa using hneg
      have hpos : 0 ≤ (1 : ℚ) - z := not_lt.mp hneg
      rw [hd, abs_of_nonneg hpos]
      obtain ⟨e2, _⟩ := ofMag_le_bound false (1 - z) 1 hpos (by linarith) roundMag_one
        (by norm_num)
      rw [e2]
      intro hc
      injection hc with _ hval
      by_cases hhalf : z < 1 / 2
      · have hm := roundMag_mono (show (0 : ℚ) ≤ 1 / 2 by norm_num)
          (show (1 : ℚ) / 2 ≤ 1 - z by linarith)
        rw [roundMag_half, hval] at hm
        norm_num at hm
      · obtain ⟨k, hk, hk53⟩ := grid_half_one z hv (not_lt.mp hhalf) (by linarith)
        have hk52 : 2 ^ 52 ≤ k := by
          have h3 : (1 : ℚ) / 2 ≤ (k : ℚ) / 2 ^ 53 := by rw [← hk]; exact not_lt.mp hhalf
          rw [le_div_iff₀ (by norm_num)] at h3
          have h4 : ((2 ^ 52 : Nat) : ℚ) ≤ (k : ℚ) := by
            push_cast
            linarith
          exact_mod_cast h4
        obtain ⟨m, hm⟩ : ∃ m : Nat, m + k = 2 ^ 53 := ⟨2 ^ 53 - k, by omega⟩
        have hmq : (m : ℚ) = 2 ^ 53 - (k : ℚ) := by
          have h6 : ((m + k : Nat) : ℚ) = ((2 ^ 53 : Nat) : ℚ) := by rw [hm]
          push_cast at h6
          linarith
        have e53 : pow2 (-53) = 1 / 2 ^ 53 := by rw [pow2_eq]; norm_num
        have hform : (1 : ℚ) - z = (m : ℚ) * pow2 (-53) := by
          rw [e53, hk, hmq]
          ring
        have hfix := roundMag_fix m (-53) (by omega) (by norm_num)
        rw [hform, hfix, e53] at hval
        have h5 : ((2 * m : Nat) : ℚ) = ((5404319552844595 : Nat) : ℚ) := by
          push_cast
          linarith
        have hnat : 2 * m = 5404319552844595 := by exact_mod_cast h5
        omega

/-- The sampler never returns the double 0.30, for a positive tick rate. -/
theorem get_cpu_usage_ne_setpoint (tps : Int) (htps : 0 < tps) (s : SamplerState)
    (r : StatReading) : (get_cpu_usage tps s r).1 ≠ CPU_T1MICRO := by
  by_cases h : s.last_idle = 0
  · rw [get_cpu_usage_first tps s r h, CPU_T1MICRO_eq]
    intro hc
    injection hc with _ hval
    norm_num at hval
  · obtain ⟨x, ex, hx⟩ := idle_diff_fin tps htps
      (toULong ((r.idle_jiffies : Int) - s.last_idle)) (toULong_le _)
    obtain ⟨y, ey, hy0, hy⟩ := time_diff_fin (subtract_timevals r.tv s.last_tv) (toULong_le _)
    unfold get_cpu_usage
    rw [if_neg h]
    simp only [ex, ey, gt_zero_fin, ofInt_one]
    by_cases hp : 0 < y
    · rw [if_pos (by simpa using hp)]
      rcases ratio_cases x y hx hp with e | ⟨z, e, hz, hzv⟩
      · rw [e, CPU_T1MICRO_eq]
        simp [Double.sub]
      · rw [e]
        apply one_sub_ne_setpoint z hz
        rw [hzv]
        exact roundMag_idem _ (div_nonneg hx hp.le)
    · rw [if_neg (by simpa using hp), ofInt_zero, CPU_T1MICRO_eq]
      intro hc
      injection hc with _ hval
      norm_num at hval

/-- The quotient of two rounded magnitudes whose exact ratio is 0.7. -/
theorem ratio_near (Y x y w : ℚ) (hxl : 7 / 10 * Y * (1 - 1 / 2 ^ 53) ≤ x)
    (hxu : x ≤ 7 / 10 * Y * (1 + 1 / 2 ^ 53)) (hyl : Y * (1 - 1 / 2 ^ 53) ≤ y)
    (hyu : y ≤ Y * (1 + 1 / 2 ^ 53)) (hy0 : 0 < y) (hwy : w * y = x) :
    7 / 10 * (1 - 1 / 2 ^ 53) ≤ w * (1 + 1 / 2 ^ 53) ∧
      w * (1 - 1 / 2 ^ 53) ≤ 7 / 10 * (1 + 1 / 2 ^ 53) := by
  constructor
  · apply le_of_mul_le_mul_right _ hy0
    have h1 : w * (1 + 1 / 2 ^ 53) * y = x * (1 + 1 / 2 ^ 53) := by
      rw [← hwy]; ring
    rw [h1]
    linarith only [hxl, hyu]
  · apply le_of_mul_le_mul_right _ hy0
    have h1 : w * (1 - 1 / 2 ^ 53) * y = x * (1 - 1 / 2 ^ 53) := by
      rw [← hwy]; ring
    rw [h1]
    linarith only [hxu, hyl]

/-- The rounded difference `1 - z` for a rounded quotient `z` near 0.7 is
within `2^-50` of the double 0.30. -/
theorem setpoint_near (w z u : ℚ) (hwl : 7 / 10 * (1 - 1 / 2 ^ 53) ≤ w * (1 + 1 / 2 ^ 53))
    (hwu : w * (1 - 1 / 2 ^ 53) ≤ 7 / 10 * (1 + 1 / 2 ^ 53))
    (hzl : w * (1 - 1 / 2 ^ 53) ≤ z) (hzu : z ≤ w * (1 + 1 / 2 ^ 53))
    (hul : (1 - z) * (1 - 1 / 2 ^ 53) ≤ u) (huu : u ≤ (1 - z) * (1 + 1 / 2 ^ 53)) :
    (5404319552844595 / 18014398509481984 : ℚ) - 1 / 2 ^ 50 ≤ u ∧
      u ≤ 5404319552844595 / 18014398509481984 + 1 / 2 ^ 50 := by
  constructor
  · linarith only [hwl, hwu, hzl, hzu, hul, huu]
  · linarith only [hwl, hwu, hzl, hzu, hul, huu]

/-- The value `1 - x / y` in doubles for rounded magnitudes `x`, `y` of exact
quantities in the ratio 0.7: a positive finite double within `2^-50` of the
double 0.30. -/
theorem usage_near_setpoint (X Y : ℚ) (hXY : X = 7 / 10 * Y) (hY0 : 1 / 1000000 ≤ Y) :
    0 < roundMag Y ∧
      ∃ u : ℚ, Double.sub (fin false 1)
          (Double.div (fin false (roundMag X)) (fin false (roundMag Y))) = fin false u ∧
        (5404319552844595 / 18014398509481984 : ℚ) - 1 / 2 ^ 50 ≤ u ∧
        u ≤ 5404319552844595 / 18014398509481984 + 1 / 2 ^ 50 := by
  have hn := pow2_neg_1022_le
  have hn30 : pow2 (-1022) ≤ 1 / 2 ^ 30 := by
    have h2 : pow2 (-1022) ≤ pow2 (-30) := by rw [pow2_le_iff]; norm_num
    have e30 : pow2 (-30) = 1 / 2 ^ 30 := by rw [pow2_eq]; norm_num
    rwa [e30] at h2
  have hYn : pow2 (-1022) ≤ Y := by
    have : (1 : ℚ) / 2 ^ 30 ≤ 1 / 1000000 := by norm_num
    linarith only [this, hn30, hY0]
  have hXn : pow2 (-1022) ≤ 7 / 10 * Y := by
    have : (1 : ℚ) / 2 ^ 30 ≤ 7 / 10 * (1 / 1000000) := by norm_num
    linarith only [this, hn30, hY0]
  subst hXY
  have hxl := roundMag_rel_lower _ hXn
  have hxu := roundMag_rel_upper _ hXn
  have hyl := roundMag_rel_lower Y hYn
  have hyu := roundMag_rel_upper Y hYn
  have hy0 : 0 < roundMag Y := by linarith only [hyl, hY0]
  have hx0 : 0 < roundMag (7 / 10 * Y) := by linarith only [hxl, hY0]
  refine ⟨hy0, ?_⟩
  obtain ⟨w, hw⟩ : ∃ w : ℚ, w = roundMag (7 / 10 * Y) / roundMag Y := ⟨_, rfl⟩
  have hwy : w * roundMag Y = roundMag (7 / 10 * Y) := by rw [hw]; field_simp
  have hw0 : 0 < w := by rw [hw]; exact div_pos hx0 hy0
  obtain ⟨hwl, hwu⟩ := ratio_near Y (roundMag (7 / 10 * Y)) (roundMag Y) w hxl hxu hyl hyu hy0
    hwy
  have hwn : pow2 (-1022) ≤ w := by linarith only [hwl, hn]
  have hw1 : w ≤ 1 := by linarith only [hwu]
  obtain ⟨i3, _⟩ := ofMag_le_bound false w 1 hw0.le hw1 roundMag_one (by norm_num)
  have hzl := roundMag_rel_lower w hwn
  have hzu := roundMag_rel_upper w hwn
  have hvpos : 0 < 1 - roundMag w := by linarith only [hwu, hzu]
  have hvn : pow2 (-1022) ≤ 1 - roundMag w := by linarith only [hwu, hzu, hn]
  have hz0 := roundMag_nonneg w hw0.le
  obtain ⟨i4, _⟩ := ofMag_le_bound false (1 - roundMag w) 1 hvpos.le
    (by linarith only [hz0]) roundMag_one (by norm_num)
  have hul := roundMag_rel_lower _ hvn
  have huu := roundMag_rel_upper _ hvn
  have hratio : Double.div (fin false (roundMag (7 / 10 * Y))) (fin false (roundMag Y)) =
      fin false (roundMag w) := by
    simp [Double.div, hy0.ne', ← hw, i3]
  have hsub : Double.sub (fin false 1) (fin false (roundMag w)) =
      fin false (roundMag (1 - roundMag w)) := by
    have hne : ¬ ((1 : ℚ) - roundMag w = 0) := hvpos.ne'
    have hd : decide ((1 : ℚ) - roundMag w < 0) = false := by
      simpa using hvpos.le
    simp only [Double.sub, sval_false, hne, if_false, hd, abs_of_pos hvpos, i4]
  rw [hratio, hsub]
  exact ⟨_, rfl, setpoint_near w (roundMag w) _ hwl hwu hzl hzu hul huu⟩

/-- The two quotients of `get_cpu_usage` when the tick rate and the two
differences are below `2^53`: the conversions are exact, and each quotient
is the rounded exact quotient. -/
theorem sampler_quotients (tps : Int) (s : SamplerState) (r : StatReading) (d e k : Nat)
    (hk : tps = k) (hk0 : 0 < k) (hk53 : k < 2 ^ 53)
    (hd : (r.idle_jiffies : Int) - s.last_idle = d)
    (he : (r.tv.tv_usec - s.last_tv.tv_usec) + (r.tv.tv_sec - s.last_tv.tv_sec) * 1000000 = e)
    (hd2 : d < 2 ^ 53) (he2 : e < 2 ^ 53) :
    Double.div (ofInt (toULong ((r.idle_jiffies : Int) - s.last_idle))) (ofInt tps) =
        fin false (roundMag ((d : ℚ) / k)) ∧
      Double.div (ofInt (subtract_timevals r.tv s.last_tv)) (ofInt 1000000) =
        fin false (roundMag ((e : ℚ) / 1000000)) := by
  have hkq : (0 : ℚ) < (k : ℚ) := by exact_mod_cast hk0
  have b64 : ∀ n : Nat, n < 2 ^ 53 → (n : ℚ) ≤ 2 ^ 64 := by
    intro n hn
    have h1 : (n : ℚ) < 2 ^ 53 := by exact_mod_cast hn
    have h2 : (2 : ℚ) ^ 53 ≤ 2 ^ 64 := by norm_num
    linarith only [h1, h2]
  have e1 : ofInt (d : Int) = fin false (d : ℚ) := by
    have := (ofInt_nat d (b64 d hd2)).1
    rwa [roundMag_nat d hd2] at this
  have e2 : ofInt (e : Int) = fin false (e : ℚ) := by
    have := (ofInt_nat e (b64 e he2)).1
    rwa [roundMag_nat e he2] at this
  have e3 : ofInt tps = fin false (k : ℚ) := by
    rw [hk]
    have := (ofInt_nat k (b64 k hk53)).1
    rwa [roundMag_nat k hk53] at this
  obtain ⟨i1, _⟩ := ofMag_le_bound false ((d : ℚ) / k) (d : ℚ) (by positivity)
    (div_le_self (by positivity) (by
      have : 1 ≤ k := hk0
      exact_mod_cast this)) (roundMag_nat d hd2) (b64 d hd2)
  obtain ⟨i2, _⟩ := ofMag_le_bound false ((e : ℚ) / 1000000) (e : ℚ) (by positivity)
    (div_le_self (by positivity) (by norm_num)) (roundMag_nat e he2) (b64 e he2)
  constructor
  · have hlt : d < 2 ^ 64 := lt_of_lt_of_le hd2 (by norm_num)
    rw [hd, toULong_nat d hlt, e1, e3]
    simp [Double.div, hkq.ne', i1]
  · have hlt : e < 2 ^ 64 := lt_of_lt_of_le he2 (by norm_num)
    unfold subtract_timevals
    rw [he, toULong_nat e hlt, e2, ofInt_million]
    simp [Double.div, i2]

/-- When the idle time accrued since the stored sample is 70% of the elapsed
time, the value the sampler returns is the setpoint within floating
tolerance. -/
theorem get_cpu_usage_at_setpoint (tps : Int) (s : SamplerState) (r : StatReading)
    (d e : Nat) (htps : 0 < tps) (htps2 : tps < 2 ^ 53) (hlast : s.last_idle ≠ 0)
    (hd : (r.idle_jiffies : Int) - s.last_idle = d)
    (he : (r.tv.tv_usec - s.last_tv.tv_usec) + (r.tv.tv_sec - s.last_tv.tv_sec) * 1000000 = e)
    (hd2 : d < 2 ^ 53) (he2 : e < 2 ^ 53) (he0 : 0 < e)
    (hload : (d : Int) * 1000000 * 10 = 7 * (e * tps)) :
    near_setpoint (get_cpu_usage tps s r).1 = true := by
  obtain ⟨k, hk⟩ := Int.eq_ofNat_of_zero_le htps.le
  have hk53 : k < 2 ^ 53 := by
    have : (k : Int) < 2 ^ 53 := hk ▸ htps2
    exact_mod_cast this
  have hk0 : 0 < k := by
    have : (0 : Int) < (k : Int) := hk ▸ htps
    exact_mod_cast this
  have hkq : (0 : ℚ) < (k : ℚ) := by exact_mod_cast hk0
  obtain ⟨hidle, htime⟩ := sampler_quotients tps s r d e k hk hk0 hk53 hd he hd2 he2
  have hXY : (d : ℚ) / k = 7 / 10 * ((e : ℚ) / 1000000) := by
    have h : ((d : Int) : ℚ) * 1000000 * 10 = 7 * (((e : Int) : ℚ) * ((k : Int) : ℚ)) := by
      rw [hk] at hload
      exact_mod_cast hload
    simp only [Int.cast_natCast] at h
    field_simp
    linarith only [h]
  have hY0 : (1 : ℚ) / 1000000 ≤ (e : ℚ) / 1000000 := by
    have : (1 : ℚ) ≤ (e : ℚ) := by exact_mod_cast he0
    exact div_le_div_of_nonneg_right this (by norm_num)
  obtain ⟨hy0, u, hu, hu1, hu2⟩ := usage_near_setpoint _ _ hXY hY0
  unfold get_cpu_usage
  rw [if_neg hlast]
  simp only [hidle, htime, gt_zero_fin, ofInt_one]
  rw [if_pos (by simpa using hy0), hu]
  unfold near_setpoint
  rw [CPU_T1MICRO_eq]
  simp only [decide_eq_true_eq, pow2_neg_50]
  exact ⟨hu1, hu2⟩

theorem replicate_pass (n : Nat) (q : StepInput) :
    List.replicate (2 * n + 2) q =
      List.replicate n q ++ [q] ++ List.replicate n q ++ [q] := by
  have h : 2 * n + 2 = (n + 1) + (n + 1) := by ring
  rw [h, List.replicate_add, List.replicate_succ']
  simp only [List.append_assoc]

/-- A pass of the loop body with no signal delivered: the controller step on
the sampler's value, and the program back at the test with `running` set. -/
theorem exec_quiet_pass (tps : Int) (m : Machine) (p : StatReading × ProcTable × Nat)
    (hpc : m.pc = PC.top) (hrun : m.running = true) :
    (exec tps m (quiet_pass p)).pc = PC.top ∧
      (exec tps m (quiet_pass p)).running = true ∧
      (exec tps m (quiet_pass p)).target_cpu_usage =
        controller_step m.target_cpu_usage (get_cpu_usage tps m.sampler p.1).1 ∧
      (exec tps m (quiet_pass p)).sampler = (get_cpu_usage tps m.sampler p.1).2 := by
  have hp := exec_pass tps m ⟨false, ⟨some p.1, some p.2.1, p.2.2⟩⟩ p.1 p.2.1
    (List.replicate (update_pidlist p.2.1 p.2.2).length ⟨false, ⟨none, none, 0⟩⟩)
    (List.replicate (update_pidlist p.2.1 p.2.2).length ⟨false, ⟨none, none, 0⟩⟩)
    ⟨false, ⟨none, none, 0⟩⟩ ⟨false, ⟨none, none, 0⟩⟩ hpc hrun rfl rfl rfl
    (List.length_replicate _ _) (List.length_replicate _ _)
  have hq : quiet_pass p = (⟨false, ⟨some p.1, some p.2.1, p.2.2⟩⟩ : StepInput) ::
      (List.replicate (update_pidlist p.2.1 p.2.2).length ⟨false, ⟨none, none, 0⟩⟩ ++
        [⟨false, ⟨none, none, 0⟩⟩] ++
        List.replicate (update_pidlist p.2.1 p.2.2).length ⟨false, ⟨none, none, 0⟩⟩ ++
        [⟨false, ⟨none, none, 0⟩⟩]) := by
    unfold quiet_pass
    rw [replicate_pass]
  rw [hq, hp]
  refine ⟨rfl, ?_, rfl, rfl⟩
  simp

theorem exec_flatten_cons (tps : Int) (m : Machine) (p : StatReading × ProcTable × Nat)
    (ps : List (StatReading × ProcTable × Nat)) :
    exec tps m (quiet_run (p :: ps)) = exec tps (exec tps m (quiet_pass p)) (quiet_run ps) := by
  unfold quiet_run
  rw [List.map_cons, List.flatten_cons, exec_append]

/-- A double near the setpoint is a positive finite value within `2^-50` of
the setpoint. -/
theorem near_setpoint_fin (u : Double) (h : near_setpoint u = true) :
    ∃ b : ℚ, u = fin false b ∧
      (5404319552844595 / 18014398509481984 : ℚ) - 1 / 2 ^ 50 ≤ b ∧
      b ≤ 5404319552844595 / 18014398509481984 + 1 / 2 ^ 50 := by
  unfold near_setpoint at h
  rw [CPU_T1MICRO_eq] at h
  cases u with
  | nan => simp at h
  | inf s => simp at h
  | fin s b =>
    cases s with
    | true => simp at h
    | false =>
      simp only [decide_eq_true_eq, pow2_neg_50] at h
      exact ⟨b, rfl, h.1, h.2⟩

/-- Passes with no signal delivered and every reading near the setpoint: the
target stays in the range and falls by at most `2^-47` per pass. -/
theorem quiet_run_near (tps : Int) :
    ∀ (ps : List (StatReading × ProcTable × Nat)) (m : Machine) (a : ℚ),
      m.pc = PC.top → m.running = true → m.target_cpu_usage = fin false a →
      (5764607523034235 / 576460752303423488 : ℚ) ≤ a → a ≤ 1 →
      (∀ u ∈ sample_all tps m.sampler (ps.map (fun p => p.1)), near_setpoint u = true) →
      (exec tps m (quiet_run ps)).pc = PC.top ∧
        ∃ a' : ℚ, (exec tps m (quiet_run ps)).target_cpu_usage = fin false a' ∧
          a - (ps.length : ℚ) / 2 ^ 47 ≤ a' ∧ a' ≤ 1 := by
  intro ps
  induction ps with
  | nil =>
    intro m a hpc _ ht _ ha2 _
    refine ⟨hpc, a, ht, ?_, ha2⟩
    simp
  | cons p ps ih =>
    intro m a hpc hrun ht ha1 ha2 hs
    obtain ⟨q1, q2, q3, q4⟩ := exec_quiet_pass tps m p hpc hrun
    have hu : near_setpoint (get_cpu_usage tps m.sampler p.1).1 = true := by
      apply hs
      simp [sample_all]
    obtain ⟨b, eb, hb1, hb2⟩ := near_setpoint_fin _ hu
    obtain ⟨a1, e1, h1, h2, h3⟩ := controller_step_near a b ha1 ha2 hb1 hb2
    have ht1 : (exec tps m (quiet_pass p)).target_cpu_usage = fin false a1 := by
      rw [q3, ht, eb, e1]
    have hs1 : ∀ u ∈ sample_all tps (exec tps m (quiet_pass p)).sampler
        (ps.map (fun p => p.1)), near_setpoint u = true := by
      intro u hmem
      apply hs
      rw [q4] at hmem
      simp only [List.map_cons, sample_all, List.mem_cons]
      exact Or.inr hmem
    obtain ⟨r1, a', r2, r3, r4⟩ := ih _ a1 q1 q2 ht1 h3 h2 hs1
    rw [exec_flatten_cons]
    refine ⟨r1, a', r2, ?_, r4⟩
    have : ((p :: ps).length : ℚ) = (ps.length : ℚ) + 1 := by simp
    rw [this]
    have e : a - ((ps.length : ℚ) + 1) / 2 ^ 47 = a - 1 / 2 ^ 47 - (ps.length : ℚ) / 2 ^ 47 := by
      ring
    rw [e]
    linarith

/-! ## The claims -/

/-- C1: for every utilization reading `u` other than a NaN (zero, the
negative zero, values near zero, negative values and the infinities
included) and every target `t` in `[CPU_MIN, CPU_MAX]`, the controller step
of the main loop gives a target in `[CPU_MIN, CPU_MAX]`.  With a tick rate
other than 0 the sampler never returns a NaN, so this holds for every reading
the sampler returns, and the target is in the range in every state the main
loop reaches. -/
theorem controller_step_in_range (tps : Int) (htps : tps ≠ 0) (t u : Double)
    (ht : inRange t = true) (hu : isNaN u = false) (s : SamplerState) (r : StatReading)
    (xs : List StepInput) :
    inRange (controller_step t u) = true ∧
      inRange (controller_step t (get_cpu_usage tps s r).1) = true ∧
      inRange (exec tps Machine.init xs).target_cpu_usage = true := by
  refine ⟨?_, ?_, ?_⟩
  · apply controller_step_inRange t u ht
    rintro rfl
    simp [isNaN] at hu
  · exact controller_step_inRange t _ ht (get_cpu_usage_ne_nan tps htps s r)
  · exact exec_target tps htps xs Machine.init inRange_CPU_T1MICRO

theorem controller_step_in_range_witness :
    (100 : Int) ≠ 0 ∧ inRange CPU_T1MICRO = true ∧ isNaN (fin false 0) = false ∧
      (inRange (controller_step CPU_T1MICRO (fin false 0)) = true ∧
        inRange (controller_step CPU_T1MICRO
          (get_cpu_usage 100 SamplerState.init ⟨1000, ⟨0, 0⟩⟩).1) = true ∧
        inRange (exec 100 Machine.init [entry_step, quiet_step]).target_cpu_usage = true) :=
  ⟨by decide, by decide!, rfl,
    controller_step_in_range 100 (by decide) CPU_T1MICRO (fin false 0) (by decide!) rfl
      SamplerState.init ⟨1000, ⟨0, 0⟩⟩ [entry_step, quiet_step]⟩

/-- C2: when every ownership lookup succeeds and every name of digits is a
process id, the set `update_pidlist` builds is, in listing order, the first
`PIDLIST_SIZE` = 1024 of the entries whose name is made of decimal digits
only and whose owner has a uid above 0, each parsed as a pid; it holds no
process of uid 0 and no non-numeric entry, never more than 1024 entries, and
exactly 1024 when the listing has 1500 qualifying processes. -/
theorem update_pidlist_spec (pt : ProcTable) (stack : Nat)
    (hlookup : ∀ d ∈ pt.listing, strtok_null d = true → (pt.owner (atoi d)).isSome = true)
    (hrep : ∀ d ∈ pt.listing, strtok_null d = true → decimal d < 2 ^ 31) :
    update_pidlist pt stack =
        ((pt.listing.filter (qualifies pt)).map (fun d => (decimal d : Int))).take PIDLIST_SIZE ∧
      (update_pidlist pt stack).length ≤ 1024 ∧
      (∀ pid ∈ update_pidlist pt stack, ∃ d ∈ pt.listing, strtok_null d = true ∧
        pid = (decimal d : Int) ∧ ∃ uid, pt.owner pid = some uid ∧ 0 < uid) ∧
      ((pt.listing.filter (qualifies pt)).length = 1500 →
        (update_pidlist pt stack).length = 1024) := by
  have h := pidlist_loop_spec pt pt.listing stack [] (by simp [PIDLIST_SIZE]) hlookup hrep
  have e : update_pidlist pt stack =
      ((pt.listing.filter (qualifies pt)).map (fun d => (decimal d : Int))).take
        PIDLIST_SIZE := by
    unfold update_pidlist
    rw [h, List.nil_append]
  refine ⟨e, ?_, ?_, ?_⟩
  · rw [e]
    simp only [List.length_take, List.length_map, PIDLIST_SIZE]
    omega
  · intro pid hpid
    rw [e] at hpid
    have hmem := List.mem_of_mem_take hpid
    obtain ⟨d, hd, rfl⟩ := List.mem_map.mp hmem
    obtain ⟨hdl, hq⟩ := List.mem_filter.mp hd
    simp only [qualifies, Bool.and_eq_true] at hq
    obtain ⟨hs, ho⟩ := hq
    refine ⟨d, hdl, hs, rfl, ?_⟩
    cases hown : pt.owner (decimal d : Int) with
    | none => rw [hown] at ho; simp at ho
    | some uid =>
      rw [hown] at ho
      exact ⟨uid, rfl, by simpa using ho⟩
  · intro hlen
    rw [e]
    simp only [List.length_take, List.length_map, PIDLIST_SIZE, hlen]
    rfl

theorem update_pidlist_spec_witness :
    (∀ d ∈ example_table.listing, strtok_null d = true →
        (example_table.owner (atoi d)).isSome = true) ∧
      (∀ d ∈ example_table.listing, strtok_null d = true → decimal d < 2 ^ 31) ∧
      update_pidlist example_table 0 =
        ((example_table.listing.filter (qualifies example_table)).map
          (fun d => (decimal d : Int))).take PIDLIST_SIZE ∧
      update_pidlist example_table 0 = [100, 200] :=
  ⟨by decide!, by decide!,
    (update_pidlist_spec example_table 0 (by decide!) (by decide!)).1, by decide!⟩

/-- C3: for every duty cycle `d` of the format in `[0.01, 1.00]`, the
run-phase length and the suspend-phase length the main loop computes are both
between 0 and 100,000,000 ns and their sum is the quantum, 100,000,000 ns. -/
theorem quantum_split_exact (d : Double) (hv : isBinary64 d = true) (hd : inRange d = true) :
    0 ≤ (quantum_split d).1 ∧ (quantum_split d).1 ≤ 100000000 ∧
      0 ≤ (quantum_split d).2 ∧ (quantum_split d).2 ≤ 100000000 ∧
      (quantum_split d).1 + (quantum_split d).2 = SCHED_QUANTUM_NS := by
  obtain ⟨a, rfl, h1, h2, _⟩ := inRange_valid d hv hd
  obtain ⟨r0, r1⟩ := time_running_bounds a (by linarith) h2
  have e : (quantum_split (fin false a)).2 =
      wrapLong (SCHED_QUANTUM_NS - (quantum_split (fin false a)).1) := rfl
  have hq : SCHED_QUANTUM_NS = 100000000 := by decide
  rw [e, wrapLong_id _ (by rw [hq]; omega) (by rw [hq]; omega), hq]
  refine ⟨r0, r1, ?_, ?_, ?_⟩ <;> omega

theorem quantum_split_exact_witness :
    isBinary64 CPU_T1MICRO = true ∧ inRange CPU_T1MICRO = true ∧
      (0 ≤ (quantum_split CPU_T1MICRO).1 ∧ (quantum_split CPU_T1MICRO).1 ≤ 100000000 ∧
        0 ≤ (quantum_split CPU_T1MICRO).2 ∧ (quantum_split CPU_T1MICRO).2 ≤ 100000000 ∧
        (quantum_split CPU_T1MICRO).1 + (quantum_split CPU_T1MICRO).2 = SCHED_QUANTUM_NS) :=
  ⟨by decide!, by decide!, quantum_split_exact CPU_T1MICRO (by decide!) (by decide!)⟩

/-- C5 fails as stated: with the idle counter and the timestamps both
non-decreasing, the second call returns -9, outside `[0, 1]`. -/
theorem sampler_below_zero :
    sample_all 100 SamplerState.init fast_idle_readings = [fin false 0, fin true 9] ∧
      le (ofInt 0) (fin true 9) = false := by
  decide!

/-- C5, amended: for a positive tick rate every value `get_cpu_usage`
returns is at most 1; it is at least 0 as well when the idle counter and the
timestamp have not gone backwards since the stored sample, the tick rate and
the two differences are below `2^53`, and the idle time accrued,
`idle_diff / ticks_per_second`, is at most the elapsed time. -/
theorem get_cpu_usage_range (tps : Int) (htps : 0 < tps) (s : SamplerState) (r : StatReading) :
    le (get_cpu_usage tps s r).1 (ofInt 1) = true ∧
      (∀ d e : Nat, tps < 2 ^ 53 → (r.idle_jiffies : Int) - s.last_idle = d →
        (r.tv.tv_usec - s.last_tv.tv_usec) + (r.tv.tv_sec - s.last_tv.tv_sec) * 1000000 = e →
        d < 2 ^ 53 → e < 2 ^ 53 → (d : Int) * 1000000 ≤ e * tps →
        le (ofInt 0) (get_cpu_usage tps s r).1 = true) :=
  ⟨get_cpu_usage_le_one tps htps s r,
    fun d e h1 h2 h3 h4 h5 h6 => get_cpu_usage_nonneg tps htps s r d e h1 h2 h3 h4 h5 h6⟩

theorem get_cpu_usage_range_witness :
    (0 : Int) < 100 ∧
      le (get_cpu_usage 100 ⟨100, ⟨0, 0⟩⟩ ⟨130, ⟨1, 0⟩⟩).1 (ofInt 1) = true ∧
      le (ofInt 0) (get_cpu_usage 100 ⟨100, ⟨0, 0⟩⟩ ⟨130, ⟨1, 0⟩⟩).1 = true :=
  ⟨by decide,
    (get_cpu_usage_range 100 (by decide) ⟨100, ⟨0, 0⟩⟩ ⟨130, ⟨1, 0⟩⟩).1,
    (get_cpu_usage_range 100 (by decide) ⟨100, ⟨0, 0⟩⟩ ⟨130, ⟨1, 0⟩⟩).2 30 1000000
      (by decide) (by decide) (by decide) (by decide) (by decide) (by decide)⟩

/-- C6 fails on the code: `stat` is not tested, so after a failed lookup the
test `statbuf.st_uid > 0` reads what the last successful lookup stored.
Process 200, whose lookup fails, is added to the set after a process of uid
1000 and is left out after a process of root. -/
theorem update_pidlist_failed_lookup :
    vanished_table.owner 200 = none ∧ update_pidlist vanished_table 0 = [100, 200] ∧
      vanished_after_root.owner 200 = none ∧ update_pidlist vanished_after_root 0 = [] := by
  decide!

/-- C7: when every reading is 1.0, the targets from any target of the format
in `[0.01, 1.00]` never increase, and from the fourth pass on they equal
`CPU_MIN`. -/
theorem target_converges_to_min (u : Nat → Double) (hu : ∀ n, u n = lit 1) (t : Double)
    (hv : isBinary64 t = true) (ht : inRange t = true) :
    (∀ n, le (target_after u t (n + 1)) (target_after u t n) = true) ∧
      (∀ n, 4 ≤ n → target_after u t n = CPU_MIN) := by
  constructor
  · intro n
    obtain ⟨a, b, ea, _, h1, hab, hb1, hva, _⟩ := target_one_invariant u hu t hv ht n
    obtain ⟨sa, pa⟩ := controller_step_one a h1 (by linarith) hva
    simp only [target_after, ea, hu n, sa, Double.le, sval_false, decide_eq_true_eq]
    exact max_le h1 pa
  · have h4 : target_after u t 4 = CPU_MIN := by
      obtain ⟨a, b, ea, eb, h1, hab, _, _, _⟩ := target_one_invariant u hu t hv ht 4
      rw [target_from_max_four, CPU_MIN_eq] at eb
      have hb : b = 5764607523034235 / 576460752303423488 := by
        injection eb with _ h
        exact h.symm
      rw [ea, CPU_MIN_eq]
      congr 1
      rw [hb] at hab
      exact le_antisymm hab h1
    intro n hn
    induction n with
    | zero => omega
    | succ k ih =>
      rcases Nat.lt_or_ge k 4 with hk | hk
      · have : k + 1 = 4 := by omega
        rw [this]; exact h4
      · simp only [target_after, ih hk, hu k]
        exact controller_step_min_one

theorem target_converges_to_min_witness :
    (∀ n, (fun _ : Nat => lit 1) n = lit 1) ∧ isBinary64 CPU_T1MICRO = true ∧
      inRange CPU_T1MICRO = true ∧
      ((∀ n, le (target_after (fun _ => lit 1) CPU_T1MICRO (n + 1))
          (target_after (fun _ => lit 1) CPU_T1MICRO n) = true) ∧
        (∀ n, 4 ≤ n → target_after (fun _ => lit 1) CPU_T1MICRO n = CPU_MIN)) :=
  ⟨fun _ => rfl, by decide!, by decide!,
    target_converges_to_min (fun _ => lit 1) (fun _ => rfl) CPU_T1MICRO (by decide!)
      (by decide!)⟩

/-- C8 fails as stated: in a run of `main` from the seed 0.30 at 30% load (70
idle ticks in each second at 100 ticks per second), the first reading is the
sampler's first-call value 0 and every later reading is `1 - 0.7`, the double
next above 0.30; the target is 1.00 after the first pass, `1 - 2^-53` after
the second and `1 - 2^-51` after the fourth, not 0.30.  The sampler cannot
return the double 0.30 itself; on that value the controller step gives 1.00
from 1.00, not 0.30 either. -/
theorem setpoint_scenario_second_pass :
    sample_all 100 SamplerState.init (setpoint_run.map (fun p => p.1)) =
        [fin false 0, fin false (5404319552844596 / 18014398509481984),
          fin false (5404319552844596 / 18014398509481984),
          fin false (5404319552844596 / 18014398509481984)] ∧
      (exec 100 Machine.init (quiet_run (setpoint_run.take 1))).target_cpu_usage = CPU_MAX ∧
      (exec 100 Machine.init (quiet_run (setpoint_run.take 2))).target_cpu_usage =
        fin false (1 - 1 / 2 ^ 53) ∧
      (exec 100 Machine.init (quiet_run (setpoint_run.take 2))).target_cpu_usage ≠
        CPU_T1MICRO ∧
      lt CPU_T1MICRO
        (exec 100 Machine.init (quiet_run (setpoint_run.take 2))).target_cpu_usage = true ∧
      (exec 100 Machine.init (quiet_run setpoint_run)).target_cpu_usage =
        fin false (1 - 1 / 2 ^ 51) ∧
      controller_step CPU_MAX CPU_T1MICRO = CPU_MAX ∧ CPU_MAX ≠ CPU_T1MICRO := by
  decide!

/-- C8, amended: in a run of `main` from the seed 0.30 with no signal
delivered, the first reading is the sampler's first-call value 0 and the
target after the first pass is `CPU_MAX` = 1.00.  When every later reading
is the setpoint within floating tolerance (at most `2^-50` from the double
0.30, as the sampler returns when the idle time is 70% of the elapsed time:
`get_cpu_usage_at_setpoint`), the target stays at 1.00 within floating
tolerance: after `k` later passes it is in `[1 - k * 2^-47, 1.00]`, and for
`k` up to `2^46` it is above 0.30. -/
theorem setpoint_scenario_near_max (tps : Int) (p : StatReading × ProcTable × Nat)
    (ps : List (StatReading × ProcTable × Nat))
    (hs : ∀ u ∈ (sample_all tps SamplerState.init ((p :: ps).map (fun q => q.1))).tail,
      near_setpoint u = true) :
    (sample_all tps SamplerState.init ((p :: ps).map (fun q => q.1))).head? =
        some (fin false 0) ∧
      (exec tps Machine.init (quiet_run [p])).target_cpu_usage = CPU_MAX ∧
      (exec tps Machine.init (quiet_run (p :: ps))).pc = PC.top ∧
      (∃ a : ℚ, (exec tps Machine.init (quiet_run (p :: ps))).target_cpu_usage = fin false a ∧
        1 - (ps.length : ℚ) / 2 ^ 47 ≤ a ∧ a ≤ 1) ∧
      (ps.length ≤ 2 ^ 46 →
        lt CPU_T1MICRO (exec tps Machine.init (quiet_run (p :: ps))).target_cpu_usage = true) := by
  have hfirst : (get_cpu_usage tps SamplerState.init p.1).1 = fin false 0 :=
    get_cpu_usage_first tps _ p.1 rfl
  obtain ⟨q1, q2, q3, q4⟩ := exec_quiet_pass tps Machine.init p rfl rfl
  have ht1 : (exec tps Machine.init (quiet_pass p)).target_cpu_usage = fin false 1 := by
    rw [q3]
    show controller_step CPU_T1MICRO (get_cpu_usage tps SamplerState.init p.1).1 = fin false 1
    rw [hfirst, controller_step_seed_zero, CPU_MAX_eq]
  have hs1 : ∀ u ∈ sample_all tps (exec tps Machine.init (quiet_pass p)).sampler
      (ps.map (fun q => q.1)), near_setpoint u = true := by
    intro u hmem
    apply hs
    rw [q4] at hmem
    simp only [List.map_cons, sample_all, List.tail_cons]
    exact hmem
  obtain ⟨r1, a, r2, r3, r4⟩ := quiet_run_near tps ps _ 1 q1 q2 ht1 (by norm_num) le_rfl hs1
  have hrun : exec tps Machine.init (quiet_run (p :: ps)) =
      exec tps (exec tps Machine.init (quiet_pass p)) (quiet_run ps) :=
    exec_flatten_cons tps _ p ps
  refine ⟨?_, ?_, ?_, ⟨a, ?_, r3, r4⟩, ?_⟩
  · simp [sample_all, hfirst]
  · have : quiet_run [p] = quiet_pass p := by simp [quiet_run]
    rw [this, ht1, CPU_MAX_eq]
  · rw [hrun]; exact r1
  · rw [hrun]; exact r2
  · intro hlen
    rw [hrun, r2, CPU_T1MICRO_eq]
    simp only [Double.lt, sval_false, decide_eq_true_eq]
    have h1 : (ps.length : ℚ) ≤ 2 ^ 46 := by exact_mod_cast hlen
    have h2 : (ps.length : ℚ) / 2 ^ 47 ≤ 1 / 2 := by
      rw [div_le_iff₀ (by norm_num)]
      linarith
    have h3 : (5404319552844595 / 18014398509481984 : ℚ) < 1 / 2 := by norm_num
    linarith

theorem setpoint_scenario_near_max_witness :
    (∀ u ∈ (sample_all 100 SamplerState.init (setpoint_run.map (fun q => q.1))).tail,
        near_setpoint u = true) ∧
      (exec 100 Machine.init (quiet_run setpoint_run)).pc = PC.top ∧
      (3 ≤ 2 ^ 46 →
        lt CPU_T1MICRO (exec 100 Machine.init (quiet_run setpoint_run)).target_cpu_usage =
          true) :=
  ⟨by decide!,
    (setpoint_scenario_near_max 100 (⟨1000, ⟨0, 0⟩⟩, example_table, 0)
      [(⟨1070, ⟨1, 0⟩⟩, example_table, 0), (⟨1140, ⟨2, 0⟩⟩, example_table, 0),
        (⟨1210, ⟨3, 0⟩⟩, example_table, 0)] (by decide!)).2.2.1,
    (setpoint_scenario_near_max 100 (⟨1000, ⟨0, 0⟩⟩, example_table, 0)
      [(⟨1070, ⟨1, 0⟩⟩, example_table, 0), (⟨1140, ⟨2, 0⟩⟩, example_table, 0),
        (⟨1210, ⟨3, 0⟩⟩, example_table, 0)] (by decide!)).2.2.2.2⟩

theorem sampler_after_eq (tps : Int) :
    ∀ (rs : List StatReading) (s : SamplerState),
      sampler_after tps s rs =
        match rs.getLast? with
        | some r => ⟨r.idle_jiffies, r.tv⟩
        | none => s := by
  intro rs
  induction rs with
  | nil => intro s; rfl
  | cons r rs ih =>
    intro s
    simp only [sampler_after, get_cpu_usage_state]
    rw [ih]
    cases rs with
    | nil => rfl
    | cons r' rs' =>
      rw [List.getLast?_cons_cons]
      cases hl : (r' :: rs').getLast? with
      | none => simp at hl
      | some q => rfl

theorem subtract_timevals_pos (c p : Timeval)
    (h0 : 0 ≤ (c.tv_usec - p.tv_usec) + (c.tv_sec - p.tv_sec) * 1000000)
    (h1 : (c.tv_usec - p.tv_usec) + (c.tv_sec - p.tv_sec) * 1000000 < 2 ^ 64) :
    0 < subtract_timevals c p ↔
      0 < (c.tv_usec - p.tv_usec) + (c.tv_sec - p.tv_sec) * 1000000 := by
  unfold subtract_timevals toULong
  rw [Int.emod_eq_of_lt h0 h1]
  omega

/-- C9 fails as stated: with the idle counter 0 at the first call, the
second call, one second later with 50 more idle ticks at 100 ticks per
second, returns 0 again, where the claim gives 1 - 0.5 / 1 = 0.5.  And with
the second timestamp before the first, the elapsed time is not positive and
the claim gives 0, where the call returns a value just below 1. -/
theorem sampler_zero_idle_counter :
    (sample_all 100 SamplerState.init zero_idle_readings)[1]? = some (fin false 0) ∧
      spec_usage 100 zero_idle_readings 1 = some (fin false (1 / 2)) ∧
      spec_usage 100 backward_readings 1 = some (fin false 0) ∧
      (sample_all 100 SamplerState.init backward_readings)[1]? =
        some (usage_between 100 ⟨100, ⟨10, 0⟩⟩ ⟨150, ⟨9, 0⟩⟩) ∧
      lt (fin false (99 / 100)) (usage_between 100 ⟨100, ⟨10, 0⟩⟩ ⟨150, ⟨9, 0⟩⟩) = true := by
  decide!

/-- C9, amended: over every sequence of calls of `get_cpu_usage`, the first
call returns 0; a later call returns 0 when the idle counter stored by the
call before is 0, and otherwise `1 - idle_diff / time_diff` against the
reading of the call before when the `unsigned long` count of elapsed
microseconds is positive and 0 when it is not; for timestamps that have not
gone backwards that count is positive exactly when the elapsed time is; and
every call stores its reading as the previous sample. -/
theorem sample_all_spec (tps : Int) (rs : List StatReading) (i : Nat) :
    (sample_all tps SamplerState.init rs)[i]? = usage_of_call tps rs i ∧
      sampler_after tps SamplerState.init rs =
        (match rs.getLast? with
          | some r => ⟨r.idle_jiffies, r.tv⟩
          | none => SamplerState.init) ∧
      (∀ c p : Timeval, 0 ≤ (c.tv_usec - p.tv_usec) + (c.tv_sec - p.tv_sec) * 1000000 →
        (c.tv_usec - p.tv_usec) + (c.tv_sec - p.tv_sec) * 1000000 < 2 ^ 64 →
        (0 < subtract_timevals c p ↔
          0 < (c.tv_usec - p.tv_usec) + (c.tv_sec - p.tv_sec) * 1000000)) := by
  refine ⟨?_, sampler_after_eq tps rs SamplerState.init, subtract_timevals_pos⟩
  cases rs with
  | nil => cases i <;> simp [sample_all, usage_of_call]
  | cons r rs =>
    cases i with
    | zero =>
      simp only [sample_all, usage_of_call, List.getElem?_cons_zero, List.head?_cons,
        Option.map_some']
      rw [get_cpu_usage_first tps _ r rfl, ofInt_zero]
    | succ j =>
      simp only [sample_all, usage_of_call, List.getElem?_cons_succ, get_cpu_usage_state]
      have := sample_all_get tps rs r j
      simpa using this

theorem sample_all_spec_witness :
    (sample_all 100 SamplerState.init zero_idle_readings)[1]? =
        usage_of_call 100 zero_idle_readings 1 ∧
      (0 < subtract_timevals ⟨1, 0⟩ ⟨0, 0⟩ ↔
        0 < (((⟨1, 0⟩ : Timeval).tv_usec - (⟨0, 0⟩ : Timeval).tv_usec) +
          ((⟨1, 0⟩ : Timeval).tv_sec - (⟨0, 0⟩ : Timeval).tv_sec) * 1000000 : Int)) :=
  ⟨(sample_all_spec 100 zero_idle_readings 1).1,
    (sample_all_spec 100 zero_idle_readings 1).2.2 ⟨1, 0⟩ ⟨0, 0⟩ (by decide) (by decide)⟩

/-- C10 fails as stated: for the target 1.0 and the readings `1 - 2^-52` and
`1 - 2^-53`, two doubles in (0, 1] with the first below the second, the two
pre-clamp targets are the same double, so the first is not greater. -/
theorem preclamp_not_strict :
    inRange CPU_MAX = true ∧
      isBinary64 (fin false (1 - 1 / 2 ^ 52)) = true ∧
      isBinary64 (fin false (1 - 1 / 2 ^ 53)) = true ∧
      lt (ofInt 0) (fin false (1 - 1 / 2 ^ 52)) = true ∧
      lt (fin false (1 - 1 / 2 ^ 52)) (fin false (1 - 1 / 2 ^ 53)) = true ∧
      le (fin false (1 - 1 / 2 ^ 53)) (lit 1) = true ∧
      gt (preclamp CPU_MAX (fin false (1 - 1 / 2 ^ 52)))
        (preclamp CPU_MAX (fin false (1 - 1 / 2 ^ 53))) = false ∧
      preclamp CPU_MAX (fin false (1 - 1 / 2 ^ 52)) =
        preclamp CPU_MAX (fin false (1 - 1 / 2 ^ 53)) := by
  decide!

/-- C10, amended: for every target `t` in `[0.01, 1.00]` and all readings
`u1 < u2` in (0, 1], doubles of the format, the pre-clamp target
`t / u1 * 0.30` is greater than or equal to `t / u2 * 0.30`: the unclamped
output never increases with the measured utilization. -/
theorem preclamp_nonincreasing (t u1 u2 : Double) (hvt : isBinary64 t = true)
    (hv1 : isBinary64 u1 = true) (hv2 : isBinary64 u2 = true) (ht : inRange t = true)
    (h0 : lt (ofInt 0) u1 = true) (h12 : lt u1 u2 = true) (h2 : le u2 (lit 1) = true) :
    le (preclamp t u2) (preclamp t u1) = true := by
  obtain ⟨a, rfl, ha1, _, _⟩ := inRange_valid t hvt ht
  have hlit : lit 1 = fin false 1 := CPU_MAX_eq
  rw [hlit] at h2
  rcases pos_valid u1 hv1 h0 with rfl | ⟨b1, rfl, hb1⟩
  · cases u2 with
    | nan => simp [Double.lt] at h12
    | inf s => simp [Double.lt] at h12
    | fin s b => simp [Double.lt] at h12
  · cases u2 with
    | nan => simp [Double.lt] at h12
    | inf s =>
      cases s
      · simp [Double.le] at h2
      · simp [Double.lt] at h12
    | fin s b2 =>
      simp only [isBinary64, decide_eq_true_eq] at hv2
      cases s with
      | true =>
        simp only [Double.lt, sval_false, sval_true, decide_eq_true_eq] at h12
        linarith [hv2.1]
      | false =>
        simp only [Double.lt, sval_false, decide_eq_true_eq] at h12
        exact preclamp_antitone a b1 b2 (by linarith) hb1 h12.le

theorem preclamp_nonincreasing_witness :
    isBinary64 CPU_MAX = true ∧ isBinary64 CPU_MIN = true ∧ isBinary64 CPU_T1MICRO = true ∧
      inRange CPU_MAX = true ∧ lt (ofInt 0) CPU_MIN = true ∧ lt CPU_MIN CPU_T1MICRO = true ∧
      le CPU_T1MICRO (lit 1) = true ∧
      le (preclamp CPU_MAX CPU_T1MICRO) (preclamp CPU_MAX CPU_MIN) = true :=
  ⟨by decide!, by decide!, by decide!, by decide!, by decide!, by decide!, by decide!,
    preclamp_nonincreasing CPU_MAX CPU_MIN CPU_T1MICRO (by decide!) (by decide!) (by decide!)
      (by decide!) (by decide!) (by decide!) (by decide!)⟩

end MicroManager
